import Mathlib

/-!
Verification of the AgentProof proof-chain engine
(`src/agentproof/src/{proof.js,keys.js,chain.js?}` and the verification module
bundled in `src/unnamed/part_004`), as a shallow embedding in Lean 4.

JavaScript JSON values are modelled by the inductive type `Json`.
`undefined` is modelled as `Option.none` where a value can be absent
(missing object fields, a missing function argument); `null` is `Json.null`.
Cryptographic primitives (SHA-256, Ed25519) and date handling are parameters
of the embedding, collected in the structure `CryptoModel`; facts about them
(e.g. collision-freeness of the hash, correctness of signature verification
for a matching key pair) appear as explicit hypotheses of the theorems.
-/

/-- A JavaScript JSON value.  Object fields are kept in insertion order, as
JavaScript objects do for non-index string keys.  Numbers are modelled as
integers: every numeric value appearing in the claims is an integer, and the
fixed number-to-string formatting rule of the canonicalizer restricted to
integers is plain decimal printing. -/
inductive Json where
  | null : Json
  | bool : Bool → Json
  | num : Int → Json
  | str : String → Json
  | arr : List Json → Json
  | obj : List (String × Json) → Json
  deriving Repr

mutual

def beqJson : Json → Json → Bool
  | .null, .null => true
  | .bool a, .bool b => a == b
  | .num a, .num b => a == b
  | .str a, .str b => a == b
  | .arr a, .arr b => beqJsonList a b
  | .obj a, .obj b => beqJsonPairs a b
  | _, _ => false
  termination_by structural a => a

def beqJsonList : List Json → List Json → Bool
  | [], [] => true
  | a :: as, b :: bs => beqJson a b && beqJsonList as bs
  | _, _ => false
  termination_by structural l => l

def beqJsonPairs : List (String × Json) → List (String × Json) → Bool
  | [], [] => true
  | (k, v) :: as, (l, w) :: bs => k == l && beqJson v w && beqJsonPairs as bs
  | _, _ => false
  termination_by structural l => l

end

mutual

theorem beqJson_refl : ∀ a : Json, beqJson a a = true
  | .null => rfl
  | .bool a => by simp [beqJson]
  | .num a => by simp [beqJson]
  | .str a => by simp [beqJson]
  | .arr a => by simpa [beqJson] using beqJsonList_refl a
  | .obj a => by simpa [beqJson] using beqJsonPairs_refl a

theorem beqJsonList_refl : ∀ a : List Json, beqJsonList a a = true
  | [] => rfl
  | a :: as => by simp [beqJsonList, beqJson_refl a, beqJsonList_refl as]

theorem beqJsonPairs_refl : ∀ a : List (String × Json), beqJsonPairs a a = true
  | [] => rfl
  | (k, v) :: as => by
      simp [beqJsonPairs, beqJson_refl v, beqJsonPairs_refl as]

end

mutual

theorem beqJson_eq : ∀ a b : Json, beqJson a b = true → a = b
  | .null, .null, _ => rfl
  | .bool a, .bool b, h => by simpa [beqJson] using h
  | .num a, .num b, h => by simpa [beqJson] using h
  | .str a, .str b, h => by simpa [beqJson] using h
  | .arr a, .arr b, h => by
      have := beqJsonList_eq a b (by simpa [beqJson] using h)
      simp [this]
  | .obj a, .obj b, h => by
      have := beqJsonPairs_eq a b (by simpa [beqJson] using h)
      simp [this]
  | .null, .bool _, h => by simp [beqJson] at h
  | .null, .num _, h => by simp [beqJson] at h
  | .null, .str _, h => by simp [beqJson] at h
  | .null, .arr _, h => by simp [beqJson] at h
  | .null, .obj _, h => by simp [beqJson] at h
  | .bool _, .null, h => by simp [beqJson] at h
  | .bool _, .num _, h => by simp [beqJson] at h
  | .bool _, .str _, h => by simp [beqJson] at h
  | .bool _, .arr _, h => by simp [beqJson] at h
  | .bool _, .obj _, h => by simp [beqJson] at h
  | .num _, .null, h => by simp [beqJson] at h
  | .num _, .bool _, h => by simp [beqJson] at h
  | .num _, .str _, h => by simp [beqJson] at h
  | .num _, .arr _, h => by simp [beqJson] at h
  | .num _, .obj _, h => by simp [beqJson] at h
  | .str _, .null, h => by simp [beqJson] at h
  | .str _, .bool _, h => by simp [beqJson] at h
  | .str _, .num _, h => by simp [beqJson] at h
  | .str _, .arr _, h => by simp [beqJson] at h
  | .str _, .obj _, h => by simp [beqJson] at h
  | .arr _, .null, h => by simp [beqJson] at h
  | .arr _, .bool _, h => by simp [beqJson] at h
  | .arr _, .num _, h => by simp [beqJson] at h
  | .arr _, .str _, h => by simp [beqJson] at h
  | .arr _, .obj _, h => by simp [beqJson] at h
  | .obj _, .null, h => by simp [beqJson] at h
  | .obj _, .bool _, h => by simp [beqJson] at h
  | .obj _, .num _, h => by simp [beqJson] at h
  | .obj _, .str _, h => by simp [beqJson] at h
  | .obj _, .arr _, h => by simp [beqJson] at h

theorem beqJsonList_eq : ∀ a b : List Json, beqJsonList a b = true → a = b
  | [], [], _ => rfl
  | a :: as, b :: bs, h => by
      have h' := h
      simp only [beqJsonList, Bool.and_eq_true] at h'
      have h1 := beqJson_eq a b h'.1
      have h2 := beqJsonList_eq as bs h'.2
      simp [h1, h2]
  | [], _ :: _, h => by simp [beqJsonList] at h
  | _ :: _, [], h => by simp [beqJsonList] at h

theorem beqJsonPairs_eq :
    ∀ a b : List (String × Json), beqJsonPairs a b = true → a = b
  | [], [], _ => rfl
  | (k, v) :: as, (l, w) :: bs, h => by
      have h' := h
      simp only [beqJsonPairs, Bool.and_eq_true, beq_iff_eq] at h'
      have h1 := beqJson_eq v w h'.1.2
      have h2 := beqJsonPairs_eq as bs h'.2
      simp [h'.1.1, h1, h2]
  | [], _ :: _, h => by simp [beqJsonPairs] at h
  | _ :: _, [], h => by simp [beqJsonPairs] at h

end

instance : DecidableEq Json := fun a b =>
  if h : beqJson a b = true then
    isTrue (beqJson_eq a b h)
  else
    isFalse (fun he => h (he ▸ beqJson_refl a))

/-- Lexicographic string comparison by numeric character codes — the order
used by `Array.prototype.sort()`'s default comparator (UTF-16 code units;
identical to scalar-value order on the BMP keys used here). -/
def charsLt : List Char → List Char → Bool
  | [], [] => false
  | [], _ :: _ => true
  | _ :: _, [] => false
  | a :: as, b :: bs => a.toNat < b.toNat || (a.toNat == b.toNat && charsLt as bs)

def strLtB (a b : String) : Bool := charsLt a.data b.data

/-! ## JSON serialization (`JSON.stringify` on values produced by `sortKeys`)

`JSON.stringify` output for null, booleans, integer numbers, strings
(with the standard JSON escapes), arrays and objects, with no whitespace.
We work on `List Char` internally and wrap into `String` at the end. -/

def lbraceC : Char := Char.ofNat 123

def rbraceC : Char := Char.ofNat 125

/-- Lowercase hexadecimal digit, used by the `\u00XX` escapes. -/
def hexDigitChar (n : Nat) : Char :=
  match n with
  | 0 => '0' | 1 => '1' | 2 => '2' | 3 => '3' | 4 => '4'
  | 5 => '5' | 6 => '6' | 7 => '7' | 8 => '8' | 9 => '9'
  | 10 => 'a' | 11 => 'b' | 12 => 'c' | 13 => 'd' | 14 => 'e'
  | 15 => 'f' | _ => '*'

def decDigitChar (n : Nat) : Char :=
  match n with
  | 0 => '0' | 1 => '1' | 2 => '2' | 3 => '3' | 4 => '4'
  | 5 => '5' | 6 => '6' | 7 => '7' | 8 => '8' | 9 => '9'
  | _ => '*'

/-- Decimal digits of a natural number, most significant first, with
explicit fuel so that the kernel can evaluate it (the fuel `n` is always
sufficient since the value shrinks by a factor of ten per step). -/
def natDigitsAux : Nat → Nat → List Char
  | 0, n => [decDigitChar n]
  | fuel + 1, n =>
      if n < 10 then [decDigitChar n]
      else natDigitsAux fuel (n / 10) ++ [decDigitChar (n % 10)]

def natDigits (n : Nat) : List Char := natDigitsAux n n

/-- Decimal representation of an integer, as JavaScript prints integral
numbers. -/
def intChars (n : Int) : List Char :=
  if n < 0 then '-' :: natDigits n.natAbs else natDigits n.toNat

/-- The JSON escape of one character: `"` and `\` are backslash-escaped,
control characters use the named escapes `\b \t \n \f \r` or `\u00XX`,
everything else is emitted verbatim. -/
def escChar (c : Char) : List Char :=
  if c = '"' then ['\\', '"']
  else if c = '\\' then ['\\', '\\']
  else if c = '\n' then ['\\', 'n']
  else if c = '\r' then ['\\', 'r']
  else if c = '\t' then ['\\', 't']
  else if c.toNat = 8 then ['\\', 'b']
  else if c.toNat = 12 then ['\\', 'f']
  else if c.toNat < 32 then
    ['\\', 'u', '0', '0', hexDigitChar (c.toNat / 16), hexDigitChar (c.toNat % 16)]
  else [c]

def escBody : List Char → List Char
  | [] => []
  | c :: cs => escChar c ++ escBody cs

/-- A JSON string literal: `"` + escaped body + `"`. -/
def quoteChars (s : String) : List Char := '"' :: (escBody s.data ++ ['"'])

mutual

def serC : Json → List Char
  | .null => "null".data
  | .bool true => "true".data
  | .bool false => "false".data
  | .num n => intChars n
  | .str s => quoteChars s
  | .arr xs => '[' :: (serElems xs ++ [']'])
  | .obj ms => lbraceC :: (serFields ms ++ [rbraceC])
  termination_by structural j => j

def serElems : List Json → List Char
  | [] => []
  | [x] => serC x
  | x :: y :: rest => serC x ++ ',' :: serElems (y :: rest)
  termination_by structural l => l

def serFields : List (String × Json) → List Char
  | [] => []
  | [(k, v)] => quoteChars k ++ ':' :: serC v
  | (k, v) :: f :: rest => quoteChars k ++ ':' :: serC v ++ ',' :: serFields (f :: rest)
  termination_by structural l => l

end

/-- `JSON.stringify` (no indentation), restricted to values already produced
by `sortKeys` in all the code paths modelled here. -/
def jsonSerialize (j : Json) : String := String.mk (serC j)

/-! ## Canonicalization: `sortKeys` from `src/agentproof/src/proof.js`

```js
function sortKeys(obj) {
  if (obj === null || typeof obj !== 'object') return obj;
  if (Array.isArray(obj)) return obj.map(sortKeys);
  const sorted = {};
  for (const key of Object.keys(obj).sort()) {
    sorted[key] = sortKeys(obj[key]);
  }
  return sorted;
}
```

`Object.keys(obj).sort()` sorts keys lexicographically by UTF-16 code
units; for the (BMP, non-array-index) keys appearing in this development
that coincides with `String` order in Lean, and insertion into the fresh
object preserves that sorted order.  (JavaScript objects put array-index
keys such as "0" first in numeric order; no claim uses such keys and the
model assumes ordinary string keys.)  The resulting sorted association
list is computed here by a stable insertion sort, which produces the same
list as any sort for the duplicate-free key sets of JavaScript objects. -/

def insertSorted (p : String × Json) : List (String × Json) → List (String × Json)
  | [] => [p]
  | q :: qs => if strLtB p.1 q.1 then p :: q :: qs else q :: insertSorted p qs

def insertionSortPairs : List (String × Json) → List (String × Json)
  | [] => []
  | p :: ps => insertSorted p (insertionSortPairs ps)

mutual

def sortKeys : Json → Json
  | .null => .null
  | .bool b => .bool b
  | .num n => .num n
  | .str s => .str s
  | .arr xs => .arr (sortKeysList xs)
  | .obj ms => .obj (insertionSortPairs (sortKeysPairs ms))
  termination_by structural j => j

def sortKeysList : List Json → List Json
  | [] => []
  | x :: xs => sortKeys x :: sortKeysList xs
  termination_by structural l => l

def sortKeysPairs : List (String × Json) → List (String × Json)
  | [] => []
  | (k, v) :: ms => (k, sortKeys v) :: sortKeysPairs ms
  termination_by structural l => l

end

/-- Canonical bytes of a value: recursively sorted keys, then compact JSON
serialization.  This is the `sortKeys` + `JSON.stringify` composition used
by `hashProofData`, `signProofData` and `verifySignature`. -/
def canonicalJson (j : Json) : String := jsonSerialize (sortKeys j)

/-! ## Cryptographic and environment parameters -/

/-- The primitives the engine is built on.  `hashFn` is SHA-256 as a
lowercase-hex string of a string's bytes; `signFn`/`checkSig` are Ed25519
signing and verification over base64-encoded keys and signatures
(`checkSig` returns `false`, never throws, for malformed signatures or
keys, matching the `try/catch` in `verifySignature` and the behavior of
`crypto.verify`); `privValid` tells whether `crypto.createPrivateKey`
accepts a base64 private key; `getTime` is `new Date(v).getTime()` with
`none` for `NaN`; `toISO` renders an epoch-milliseconds instant as the
ISO-8601 string `new Date().toISOString()` produces. -/
structure CryptoModel where
  hashFn : String → String
  signFn : String → String → String
  privValid : String → Bool
  checkSig : String → String → String → Bool
  getTime : Json → Option Int
  toISO : Int → String

/-- `hashProofData` from `src/agentproof/src/proof.js`: SHA-256 of the
canonical JSON serialization (recursively sorted keys). -/
def hashProofData (C : CryptoModel) (proofData : Json) : String :=
  C.hashFn (canonicalJson proofData)

/-- `deriveAgentId` from `src/agentproof/src/keys.js`:
`'agent-' + sha256(publicKey).slice(0, 16)`. -/
def deriveAgentId (C : CryptoModel) (publicKey : String) : String :=
  "agent-" ++ (C.hashFn publicKey).take 16

/-- A JavaScript exception escaping a modelled function. -/
inductive JsErr where
  | typeError : String → JsErr
  deriving Repr, DecidableEq

/-- Message of the `TypeError` thrown by a property read on `null` or
`undefined` (`kind` is `"null"` or `"undefined"`). -/
def readOnNilMsg (kind f : String) : String :=
  "Cannot read properties of " ++ kind ++ " (reading \x27" ++ f ++ "\x27)"

/-- Message of the `TypeError` thrown by `Buffer.from(null, 'base64')`,
which is where `privateKeyFromBase64(null)` fails. -/
def bufferFromNullMsg : String :=
  "The first argument must be of type string or an instance of Buffer, ArrayBuffer, or Array or an Array-like Object. Received null"

/-- Stand-in message for the error `crypto.createPrivateKey` raises on a
string that is not a valid PKCS8 key (the exact text is OpenSSL-version
specific; no claim depends on it). -/
def invalidKeyMsg : String := "Failed to read private key"

/-! ## `src/agentproof/src/proof.js` -/

def PROOF_VERSION : String := "1.0"

/-- `createProofData`: the unsigned proof object, fields in source order.
`ts` is the `new Date().toISOString()` stamp. -/
def createProofDataJ (action : String) (data : Json) (agentId : String)
    (previousHash : Json) (metadata : Json) (ts : String) : Json :=
  .obj [("version", .str PROOF_VERSION), ("action", .str action), ("data", data),
        ("agentId", .str agentId), ("previousHash", previousHash),
        ("timestamp", .str ts), ("metadata", metadata)]

/-- `signProofData`: canonicalize, decode the private key, sign.
`privateKey` is `none` when the JavaScript value is `null` (an imported
chain), in which case `Buffer.from(null, 'base64')` throws a `TypeError`
before any signing-specific code runs. -/
def signProofDataE (C : CryptoModel) (proofData : Json) (privateKey : Option String) :
    Except JsErr String :=
  match privateKey with
  | none => .error (.typeError bufferFromNullMsg)
  | some k =>
      if C.privValid k then .ok (C.signFn (canonicalJson proofData) k)
      else .error (.typeError invalidKeyMsg)

/-- `createProof`: assemble the unsigned record, hash it, sign it, and
return `{...proofData, hash, signature}` (spread preserves field order). -/
def createProofE (C : CryptoModel) (action : String) (data : Json) (agentId : String)
    (previousHash : Json) (metadata : Json) (ts : String) (privateKey : Option String) :
    Except JsErr Json := do
  let pd := createProofDataJ action data agentId previousHash metadata ts
  let h := hashProofData C pd
  let s ← signProofDataE C pd privateKey
  .ok (.obj [("version", .str PROOF_VERSION), ("action", .str action), ("data", data),
             ("agentId", .str agentId), ("previousHash", previousHash),
             ("timestamp", .str ts), ("metadata", metadata),
             ("hash", .str h), ("signature", .str s)])

/-- The proof `createProof` returns when the private key is accepted:
pure form of `createProofE` used in proofs. -/
def mkProofJ (C : CryptoModel) (sk : String) (action : String) (data : Json)
    (agentId : String) (previousHash : Json) (metadata : Json) (ts : String) : Json :=
  .obj [("version", .str PROOF_VERSION), ("action", .str action), ("data", data),
        ("agentId", .str agentId), ("previousHash", previousHash),
        ("timestamp", .str ts), ("metadata", metadata),
        ("hash", .str (hashProofData C (createProofDataJ action data agentId previousHash metadata ts))),
        ("signature", .str (C.signFn (canonicalJson (createProofDataJ action data agentId previousHash metadata ts)) sk))]

/-- JavaScript property read: first match for object keys, `undefined`
(`none`) on every other value kind.  (Reads on `null`/`undefined`
themselves throw and are modelled by `readFieldE`.) -/
def objGet : Json → String → Option Json
  | .obj ms, k => ms.lookup k
  | _, _ => none

/-! ## The `ProofChain` class (chain module bundled in `src/unnamed/part_004`) -/

structure Keypair where
  publicKey : String
  privateKey : Option String
  deriving Repr, DecidableEq

structure ChainMeta where
  created : String
  agentId : String
  publicKey : String
  deriving Repr, DecidableEq

structure Chain where
  keypair : Keypair
  agentId : String
  metadata : ChainMeta
  proofs : List Json
  deriving Repr, DecidableEq

/-- `new ProofChain(keypair)` on a fresh (non-persisted) chain; `created`
is the `new Date().toISOString()` stamp. -/
def chainNew (C : CryptoModel) (kp : Keypair) (created : String) : Chain :=
  { keypair := kp, agentId := deriveAgentId C kp.publicKey,
    metadata := { created := created, agentId := deriveAgentId C kp.publicKey,
                  publicKey := kp.publicKey },
    proofs := [] }

/-- `getLastHash`: `null` for an empty chain, else the last proof's `hash`
field.  (A missing `hash` field would read as `undefined`, which the
`previousHash = null` default parameter of `createProofData` turns into
`null`; folding the default in here is observationally identical.) -/
def getLastHash (ch : Chain) : Json :=
  match ch.proofs.getLast? with
  | none => .null
  | some p => (objGet p "hash").getD .null

/-- `ProofChain.add({action, data, metadata})` at instant `now`:
build a proof with the chain's current last hash as `previousHash` and
append it.  (Persistence to `storePath` is outside the claims.) -/
def chainAdd (C : CryptoModel) (ch : Chain) (action : String) (data : Json)
    (metadata : Json) (now : Int) : Except JsErr (Chain × Json) := do
  let p ← createProofE C action data ch.agentId (getLastHash ch) metadata
            (C.toISO now) ch.keypair.privateKey
  .ok ({ ch with proofs := ch.proofs ++ [p] }, p)

structure ExportData where
  metadata : ChainMeta
  proofs : List Json
  deriving Repr, DecidableEq

/-- `ProofChain.export()`: metadata plus proofs, no private key. -/
def chainExport (ch : Chain) : ExportData :=
  { metadata := ch.metadata, proofs := ch.proofs }

/-- `ProofChain.fromExport(data)`: a chain whose keypair has
`privateKey: null`, with metadata and proofs taken from the export. -/
def chainFromExport (C : CryptoModel) (d : ExportData) : Chain :=
  { keypair := { publicKey := d.metadata.publicKey, privateKey := none },
    agentId := deriveAgentId C d.metadata.publicKey,
    metadata := d.metadata, proofs := d.proofs }

/-- Sequential `add` calls: each input is `(action, data, metadata, now)`. -/
def buildChainGo (C : CryptoModel) :
    Chain → List (String × Json × Json × Int) → Except JsErr Chain
  | ch, [] => .ok ch
  | ch, (a, d, m, t) :: rest => do
      let (ch2, _) ← chainAdd C ch a d m t
      buildChainGo C ch2 rest

/-- A chain built from empty by sequential `ProofChain.add` calls. -/
def buildChain (C : CryptoModel) (kp : Keypair) (created : String)
    (inputs : List (String × Json × Json × Int)) : Except JsErr Chain :=
  buildChainGo C (chainNew C kp created) inputs

/-! ## The verification module (`verify.js`, bundled in `src/unnamed/part_004`)

All verification functions are modelled in `Except JsErr` so that the
places where the JavaScript code can throw on adversarial input (property
reads on `null`/`undefined`, `.length`/`.map` on a missing proofs array)
are explicit.  A `.ok` result is the structured `{valid, errors, warnings}`
object. -/

structure VerifyResult where
  valid : Bool
  errors : List String
  warnings : List String
  deriving Repr, DecidableEq

/-- A property read whose receiver may be `null`/`undefined` (throws) or
any other value (yields the property or `undefined`). -/
def readFieldE (v : Option Json) (f : String) : Except JsErr (Option Json) :=
  match v with
  | none => .error (.typeError (readOnNilMsg "undefined" f))
  | some .null => .error (.typeError (readOnNilMsg "null" f))
  | some j => .ok (objGet j f)

/-- The field list of the structural check in `verifyProof`. -/
def requiredFields : List String :=
  ["version", "action", "data", "agentId", "timestamp", "hash", "signature"]

/-- The seven fields over which hash and signature are recomputed
(`verifyHash`/`verifySignature` rebuild this object from the proof). -/
def proofDataFieldNames : List String :=
  ["version", "action", "data", "agentId", "previousHash", "timestamp", "metadata"]

/-- The reconstructed proof-data object `{version: proof.version, ...}`.
A field the proof lacks is assigned `undefined` in JavaScript; since
`JSON.stringify` drops `undefined`-valued keys (and `sortKeys` passes them
through), omitting them here yields the same canonical bytes. -/
def proofDataOf (p : Json) : Json :=
  .obj (proofDataFieldNames.filterMap (fun f => (objGet p f).map (fun v => (f, v))))

/-- `verifyHash`: recompute the hash over the proof's own fields
(excluding `hash`/`signature`) and compare with the stored `hash`
(strict string equality; a missing or non-string `hash` compares false). -/
def verifyHashB (C : CryptoModel) (p : Json) : Bool :=
  objGet p "hash" == some (.str (hashProofData C (proofDataOf p)))

/-- `verifyAgentId`: `proof.agentId === deriveAgentId(publicKey)`. -/
def verifyAgentIdB (C : CryptoModel) (p : Json) (publicKey : String) : Bool :=
  objGet p "agentId" == some (.str (deriveAgentId C publicKey))

/-- `verifySignature`: canonicalize the reconstructed proof data and check
the stored signature under the supplied public key.  The whole body is in
a `try/catch` returning `false`, so the model is total: a missing or
non-string signature decodes to nothing and verifies false.  (A JavaScript
array of numbers is also accepted by `Buffer.from` and then fails
cryptographic verification; that path is folded into `false` as well.) -/
def verifySignatureB (C : CryptoModel) (p : Json) (publicKey : String) : Bool :=
  match objGet p "signature" with
  | some (.str sig) => C.checkSig (canonicalJson (proofDataOf p)) sig publicKey
  | _ => false

/-- `new Date(x).getTime()` of a possibly-`undefined` field value
(`none` means `NaN`, and every comparison with `NaN` is false). -/
def timeOf (C : CryptoModel) (v : Option Json) : Option Int := v.bind C.getTime

/-- `verifyProof(proof, publicKey)` at verification instant `nowMs`
(`Date.now()`).  Throws (like the JavaScript) iff `proof` is `null` or
`undefined` — the first required-field read fails; otherwise returns the
structured result. -/
def verifyProofE (C : CryptoModel) (nowMs : Int) (pv : Option Json) (publicKey : String) :
    Except JsErr VerifyResult := do
  let _ ← readFieldE pv "version"
  match pv with
  | some p =>
      let missing := requiredFields.filter (fun f => (objGet p f).isNone)
      let errors0 := missing.map (fun f => "Missing required field: " ++ f)
      if errors0.isEmpty then
        let e1 := if verifyAgentIdB C p publicKey then []
                  else ["Agent ID does not match public key"]
        let e2 := if verifyHashB C p then []
                  else ["Hash verification failed - proof data may be tampered"]
        let e3 := if verifySignatureB C p publicKey then []
                  else ["Signature verification failed - proof is not authentic"]
        let errors := e1 ++ e2 ++ e3
        let warnings :=
          match timeOf C (objGet p "timestamp") with
          | some t => if t > nowMs + 60000 then ["Proof timestamp is in the future"] else []
          | none => []
        .ok { valid := errors.isEmpty, errors := errors, warnings := warnings }
      else
        .ok { valid := false, errors := errors0, warnings := [] }
  | none => .error (.typeError (readOnNilMsg "undefined" "version"))

/-- Strict equality (`===`) between two field reads.  Primitives compare
by value, `undefined === undefined` holds, and values of object/array kind
compare by reference: the two sides here are always structurally distinct
heap values (a stored string hash vs. an arbitrary replacement, or fields
of separately parsed proofs), so they are never the same reference. -/
def jsStrictEq : Option Json → Option Json → Bool
  | none, none => true
  | some .null, some .null => true
  | some (.bool a), some (.bool b) => a == b
  | some (.num a), some (.num b) => a == b
  | some (.str a), some (.str b) => a == b
  | _, _ => false

/-- `proofs.length`: throws on `null`/`undefined`, counts arrays and
strings, is `undefined` (`none`) on other primitives and on plain objects
(array-like objects with a `length` field are not modelled; no claim uses
them). -/
def lenOfE (v : Option Json) : Except JsErr (Option Nat) :=
  match v with
  | none => .error (.typeError (readOnNilMsg "undefined" "length"))
  | some .null => .error (.typeError (readOnNilMsg "null" "length"))
  | some (.arr xs) => .ok (some xs.length)
  | some (.str s) => .ok (some s.length)
  | some _ => .ok none

/-- `proofs[i]` for every index the `for` loops reach: array elements,
single-character strings for string indexing, `undefined` otherwise. -/
def elemAt (v : Option Json) (i : Nat) : Option Json :=
  match v with
  | some (.arr xs) => xs.get? i
  | some (.str s) => (s.data.get? i).map (fun c => Json.str (String.mk [c]))
  | _ => none

/-- The sequence of values the per-proof loop visits (empty when `.length`
is `undefined`, so the loop body never runs). -/
def elemsOf (v : Option Json) : List (Option Json) :=
  match v with
  | some (.arr xs) => xs.map some
  | some (.str s) => s.data.map (fun c => some (Json.str (String.mk [c])))
  | _ => []

/-- The per-proof loop of `verifyChain`: collect
`Proof ${i}: ${errors.join(', ')}` per invalid proof and the joined
warnings per proof with warnings. -/
def perProofE (C : CryptoModel) (nowMs : Int) (publicKey : String) :
    List (Option Json) → Nat → Except JsErr (List String × List String)
  | [], _ => .ok ([], [])
  | pv :: rest, i => do
      let r ← verifyProofE C nowMs pv publicKey
      let (es, ws) ← perProofE C nowMs publicKey rest (i + 1)
      let e := if r.valid then []
               else ["Proof " ++ toString i ++ ": " ++ String.intercalate ", " r.errors]
      let w := if r.warnings.isEmpty then []
               else ["Proof " ++ toString i ++ ": " ++ String.intercalate ", " r.warnings]
      .ok (e ++ es, w ++ ws)

def chainBreakMsg (i : Nat) : String :=
  "Chain break at proof " ++ toString i ++
    ": previousHash doesn\x27t match previous proof\x27s hash"

def earlierTimestampMsg (i : Nat) : String :=
  "Proof " ++ toString i ++ " has earlier timestamp than proof " ++ toString (i - 1)

/-- The chain-linkage loop of `verifyChain`: for `i ≥ 1`, an error when
`proofs[i].previousHash !== proofs[i-1].hash` and a warning when the
timestamp goes backwards by more than 1000 ms (`currTime < prevTime -
1000`, the "1 second tolerance" comment in the source). -/
def linkageE (C : CryptoModel) :
    List (Option Json) → Nat → Except JsErr (List String × List String)
  | prev :: curr :: rest, i => do
      let currPrev ← readFieldE curr "previousHash"
      let prevHash ← readFieldE prev "hash"
      let es := if jsStrictEq currPrev prevHash then [] else [chainBreakMsg i]
      let prevT ← readFieldE prev "timestamp"
      let currT ← readFieldE curr "timestamp"
      let ws :=
        match timeOf C currT, timeOf C prevT with
        | some ct, some pt => if ct < pt - 1000 then [earlierTimestampMsg i] else []
        | _, _ => []
      let (es2, ws2) ← linkageE C (curr :: rest) (i + 1)
      .ok (es ++ es2, ws ++ ws2)
  | _, _ => .ok ([], [])

/-- `proofs.map(p => p.agentId)` on an array: element-wise `agentId`
reads, left to right, throwing on a `null` element. -/
def agentIdsGo : List Json → Except JsErr (List (Option Json))
  | [] => .ok []
  | p :: rest => do
      let a ← readFieldE (some p) "agentId"
      let as ← agentIdsGo rest
      .ok (a :: as)

/-- `proofs.map(p => p.agentId)`: `TypeError` on a receiver without
`.map`. -/
def agentIdsE (v : Option Json) : Except JsErr (List (Option Json)) :=
  match v with
  | some (.arr xs) => agentIdsGo xs
  | _ => .error (.typeError "proofs.map is not a function")

/-- `new Set(values).size` under SameValueZero: primitives dedupe by
value, object/array values are distinct references (one per `map` result
here) and never collapse. -/
def countDistinct : List (Option Json) → List (Option Json) → Nat
  | [], _ => 0
  | x :: xs, seen =>
      if seen.any (fun y => jsStrictEq x y) then countDistinct xs seen
      else 1 + countDistinct xs (x :: seen)

/-- `verifyChain(proofs, publicKey)` at verification instant `nowMs`:
empty-chain fast path, per-proof results, first-proof `previousHash`
warning, linkage loop, multi-agent check, then the aggregate result. -/
def verifyChainE (C : CryptoModel) (nowMs : Int) (proofsVal : Option Json)
    (publicKey : String) : Except JsErr VerifyResult := do
  let len ← lenOfE proofsVal
  if len = some 0 then
    .ok { valid := true, errors := [], warnings := ["Empty chain"] }
  else do
    let xs := elemsOf proofsVal
    let pp ← perProofE C nowMs publicKey xs 0
    let ph0 ← readFieldE (elemAt proofsVal 0) "previousHash"
    let w0 := if jsStrictEq ph0 (some .null) then []
              else ["First proof has non-null previousHash (may be partial chain)"]
    let lk ← linkageE C xs 1
    let aids ← agentIdsE proofsVal
    let ae := if countDistinct aids [] > 1 then
                ["Chain contains proofs from multiple agents"]
              else []
    let errors := pp.1 ++ lk.1 ++ ae
    .ok { valid := errors.isEmpty, errors := errors,
          warnings := pp.2 ++ w0 ++ lk.2 }

/-- Property read on a value already known non-null (used for
`exportedChain.proofs` after `exportedChain.metadata` was read). -/
def optField (v : Option Json) (f : String) : Option Json :=
  match v with
  | some j => objGet j f
  | none => none

/-- JavaScript falsiness of a field value (`undefined`, `null`, `false`,
`0`, `""`). -/
def isFalsy : Option Json → Bool
  | none => true
  | some .null => true
  | some (.bool false) => true
  | some (.num 0) => true
  | some (.str "") => true
  | _ => false

/-- `verifyExportedChain(exportedChain)`: reject when
`exportedChain.metadata?.publicKey` is falsy, else verify the proofs with
that key.  A truthy non-string `publicKey` eventually throws inside
`deriveAgentId` (`hash.update` on a non-string); the precise throw site is
not exercised by any claim and is modelled as an immediate `TypeError`. -/
def verifyExportedChainE (C : CryptoModel) (nowMs : Int) (v : Option Json) :
    Except JsErr VerifyResult := do
  let md ← readFieldE v "metadata"
  let pk : Option Json :=
    match md with
    | none => none
    | some .null => none
    | some m => objGet m "publicKey"
  if isFalsy pk then
    .ok { valid := false, errors := ["Missing public key in chain metadata"],
          warnings := [] }
  else
    match pk with
    | some (.str s) => verifyChainE C nowMs (optField v "proofs") s
    | _ => .error (.typeError "The \x22data\x22 argument must be of type string or an instance of Buffer, TypedArray, or DataView")

/-! ## `src/agentproof/src/keys.js` and the `init` command (`src/unnamed/part_004`)

The file system is a flat association list from paths to contents;
`mkdirSync` on the parent directory is a no-op in this model. -/

abbrev FileSys := List (String × String)

def fsExists (fs : FileSys) (p : String) : Bool := (fs.lookup p).isSome

def fsRead (fs : FileSys) (p : String) : Option String := fs.lookup p

/-- `fs.writeFileSync`: create or unconditionally replace. -/
def fsWrite (fs : FileSys) (p c : String) : FileSys :=
  (p, c) :: fs.filter (fun e => !(e.1 == p))

/-- The bytes `saveKeypair` writes: `JSON.stringify(keypair, null, 2)`.
(The 2-space indentation is dropped; the claims concern only whether an
existing file's content is replaced, not the exact layout.) -/
def kpFileContent (kp : Keypair) : String :=
  jsonSerialize (.obj [("publicKey", .str kp.publicKey),
    ("privateKey", match kp.privateKey with | some k => .str k | none => .null)])

/-- `saveKeypair(keypair, filepath)` from `src/agentproof/src/keys.js`:
ensure the directory exists, then `writeFileSync` — with no check whether
`filepath` already exists. -/
def saveKeypair (kp : Keypair) (filepath : String) (fs : FileSys) : FileSys :=
  fsWrite fs filepath (kpFileContent kp)

/-- `cmdInit` from the CLI: refuse (printing an error and exiting 1) when
the keypair file exists, otherwise generate and save.  The freshly
generated keypair is the parameter `kp`; `some msg` is the error path. -/
def cmdInit (kp : Keypair) (keyPath : String) (fs : FileSys) : FileSys × Option String :=
  if fsExists fs keyPath then
    (fs, some ("Error: Keypair already exists at " ++ keyPath))
  else
    (saveKeypair kp keyPath fs, none)

/-! ## Mutation of parsed proofs (tampering scenarios)

`setField p f v` is the JavaScript assignment `p.f = v` on an object that
already has field `f` (key order is preserved); `setPath` is the nested
assignment `p.k1.k2...kn = v`. -/

def setField (p : Json) (f : String) (v : Json) : Json :=
  match p with
  | .obj ms => .obj (ms.map (fun e => if e.1 == f then (e.1, v) else e))
  | j => j

def setPath : Json → List String → Json → Json
  | _, [], v' => v'
  | .obj ms, k :: ks, v' => .obj (ms.map (fun e => if e.1 == k then (e.1, setPath e.2 ks v') else e))
  | j, _ :: _, _ => j

/-- Read along a path of object keys. -/
def getPath : Json → List String → Option Json
  | j, [] => some j
  | .obj ms, k :: ks =>
      match ms.lookup k with
      | some v => getPath v ks
      | none => none
  | _, _ :: _ => none

/- No duplicate keys at any nesting level (JavaScript objects cannot have
duplicates; parsed JSON in this model is assumed well-formed). -/

def nodupKeyList : List String → Bool
  | [] => true
  | k :: ks => !ks.contains k && nodupKeyList ks

mutual

def nodupB : Json → Bool
  | .obj ms => nodupKeyList (ms.map Prod.fst) && nodupPairsB ms
  | .arr xs => nodupElemsB xs
  | _ => true
  termination_by structural j => j

def nodupElemsB : List Json → Bool
  | [] => true
  | x :: xs => nodupB x && nodupElemsB xs
  termination_by structural l => l

def nodupPairsB : List (String × Json) → Bool
  | [] => true
  | (_, v) :: ms => nodupB v && nodupPairsB ms
  termination_by structural l => l

end

def isPrimB : Json → Bool
  | .arr _ => false
  | .obj _ => false
  | _ => true

/-! ## Injectivity of the serializer on the fragments the claims need -/

def digitVal (c : Char) : Nat :=
  match c with
  | '0' => 0 | '1' => 1 | '2' => 2 | '3' => 3 | '4' => 4
  | '5' => 5 | '6' => 6 | '7' => 7 | '8' => 8 | '9' => 9
  | _ => 0

def digitsToNat (l : List Char) : Nat :=
  l.foldl (fun acc c => acc * 10 + digitVal c) 0

theorem digitVal_decDigitChar (n : Nat) (h : n < 10) :
    digitVal (decDigitChar n) = n := by
  interval_cases n <;> rfl

theorem digitsToNat_append_single (ds : List Char) (c : Char) :
    digitsToNat (ds ++ [c]) = digitsToNat ds * 10 + digitVal c := by
  simp [digitsToNat, List.foldl_append]

theorem digitsToNat_natDigitsAux :
    ∀ fuel n, n ≤ fuel → digitsToNat (natDigitsAux fuel n) = n := by
  intro fuel
  induction fuel with
  | zero =>
    intro n h
    have : n = 0 := by omega
    subst this
    rfl
  | succ f ih =>
    intro n h
    rw [natDigitsAux]
    by_cases h10 : n < 10
    · simp only [h10, if_true]
      simp [digitsToNat, digitVal_decDigitChar n h10]
    · simp only [h10, if_false]
      rw [digitsToNat_append_single]
      have hle : n / 10 ≤ f := by
        have := Nat.div_lt_self (show 0 < n by omega) (show 1 < 10 by omega)
        omega
      rw [ih (n / 10) hle]
      rw [digitVal_decDigitChar (n % 10) (Nat.mod_lt n (by omega))]
      omega

theorem digitsToNat_natDigits (n : Nat) : digitsToNat (natDigits n) = n :=
  digitsToNat_natDigitsAux n n le_rfl

theorem natDigits_inj {m n : Nat} (h : natDigits m = natDigits n) : m = n := by
  have := digitsToNat_natDigits m
  rw [h, digitsToNat_natDigits n] at this
  omega

theorem natDigitsAux_head :
    ∀ fuel n, n ≤ fuel → ∃ d t, d < 10 ∧ natDigitsAux fuel n = decDigitChar d :: t := by
  intro fuel
  induction fuel with
  | zero =>
    intro n h
    have : n = 0 := by omega
    subst this
    exact ⟨0, [], by omega, rfl⟩
  | succ f ih =>
    intro n h
    rw [natDigitsAux]
    by_cases h10 : n < 10
    · exact ⟨n, [], h10, by simp [h10]⟩
    · have hle : n / 10 ≤ f := by
        have := Nat.div_lt_self (show 0 < n by omega) (show 1 < 10 by omega)
        omega
      obtain ⟨d, t, hd, ht⟩ := ih (n / 10) hle
      exact ⟨d, t ++ [decDigitChar (n % 10)], hd, by simp [h10, ht]⟩

theorem natDigits_head (n : Nat) :
    ∃ d t, d < 10 ∧ natDigits n = decDigitChar d :: t :=
  natDigitsAux_head n n le_rfl

theorem decDigitChar_toNat (d : Nat) (h : d < 10) :
    (decDigitChar d).toNat = 48 + d := by
  interval_cases d <;> rfl

theorem intChars_inj {m n : Int} (h : intChars m = intChars n) : m = n := by
  unfold intChars at h
  by_cases hm : m < 0 <;> by_cases hn : n < 0 <;> simp only [hm, hn, if_true, if_false] at h
  · have := natDigits_inj (List.cons_injective.eq_iff.mp h)
    omega
  · obtain ⟨d, t, hd, ht⟩ := natDigits_head n.toNat
    rw [ht] at h
    have h1 : '-' = decDigitChar d := (List.cons.injEq _ _ _ _ ▸ h).1
    have h2 := decDigitChar_toNat d hd
    rw [← h1] at h2
    have h3 : ('-').toNat = 45 := rfl
    omega
  · obtain ⟨d, t, hd, ht⟩ := natDigits_head m.toNat
    rw [ht] at h
    have h1 : decDigitChar d = '-' := (List.cons.injEq _ _ _ _ ▸ h).1
    have h2 := decDigitChar_toNat d hd
    rw [h1] at h2
    have h3 : ('-').toNat = 45 := rfl
    omega
  · have := natDigits_inj h
    omega

def unescKey (k : Char) : Option Char :=
  if k = '"' then some '"'
  else if k = '\\' then some '\\'
  else if k = 'n' then some '\n'
  else if k = 'r' then some '\r'
  else if k = 't' then some '\t'
  else if k = 'b' then some (Char.ofNat 8)
  else if k = 'f' then some (Char.ofNat 12)
  else none

def hexVal (c : Char) : Option Nat :=
  if Nat.ble 48 c.toNat && Nat.ble c.toNat 57 then some (c.toNat - 48)
  else if Nat.ble 97 c.toNat && Nat.ble c.toNat 102 then some (c.toNat - 87)
  else none

theorem hexVal_hexDigitChar (n : Nat) (h : n < 16) :
    hexVal (hexDigitChar n) = some n := by
  interval_cases n <;> rfl

/-- Left inverse of `escBody`, used only to prove `escBody` injective. -/
def unescBody : List Char → Option (List Char)
  | [] => some []
  | c :: rest =>
      if c = '\\' then
        match rest with
        | [] => none
        | k :: rest2 =>
            if k = 'u' then
              match rest2 with
              | a :: b :: d :: e :: rest3 =>
                  match hexVal a, hexVal b, hexVal d, hexVal e with
                  | some va, some vb, some vd, some ve =>
                      (unescBody rest3).map
                        (fun l => Char.ofNat (((va * 16 + vb) * 16 + vd) * 16 + ve) :: l)
                  | _, _, _, _ => none
              | _ => none
            else
              match unescKey k with
              | some c0 => (unescBody rest2).map (fun l => c0 :: l)
              | none => none
      else (unescBody rest).map (fun l => c :: l)
  termination_by l => l.length
  decreasing_by all_goals simp_wf <;> omega

theorem unescBody_nil : unescBody [] = some [] := by
  rw [unescBody.eq_def]

theorem unescBody_plain (c : Char) (hc : c ≠ '\\') (r : List Char) :
    unescBody (c :: r) = (unescBody r).map (fun l => c :: l) := by
  rw [unescBody.eq_def]
  simp [hc]

theorem unescBody_two (k c0 : Char) (hk : k ≠ 'u') (h : unescKey k = some c0)
    (r : List Char) :
    unescBody ('\\' :: k :: r) = (unescBody r).map (fun l => c0 :: l) := by
  rw [unescBody.eq_def]
  simp [hk, h]

theorem unescBody_escChar (c : Char) (r : List Char) :
    unescBody (escChar c ++ r) = (unescBody r).map (fun l => c :: l) := by
  by_cases h1 : c = '"'
  · subst h1
    exact unescBody_two _ _ (by decide) (by decide) r
  by_cases h2 : c = '\\'
  · subst h2
    exact unescBody_two _ _ (by decide) (by decide) r
  by_cases h3 : c = '\n'
  · subst h3
    exact unescBody_two _ _ (by decide) (by decide) r
  by_cases h4 : c = '\r'
  · subst h4
    exact unescBody_two _ _ (by decide) (by decide) r
  by_cases h5 : c = '\t'
  · subst h5
    exact unescBody_two _ _ (by decide) (by decide) r
  by_cases h6 : c.toNat = 8
  · have hc : c = Char.ofNat 8 := by rw [← h6, Char.ofNat_toNat]
    subst hc
    have he : escChar (Char.ofNat 8) = ['\\', 'b'] := by
      simp [escChar, h1, h2, h3, h4, h5]
    rw [he]
    exact unescBody_two _ _ (by decide) (by decide) r
  by_cases h7 : c.toNat = 12
  · have hc : c = Char.ofNat 12 := by rw [← h7, Char.ofNat_toNat]
    subst hc
    have he : escChar (Char.ofNat 12) = ['\\', 'f'] := by
      simp [escChar, h1, h2, h3, h4, h5, h6]
    rw [he]
    exact unescBody_two _ _ (by decide) (by decide) r
  by_cases h8 : c.toNat < 32
  · have he : escChar c =
        ['\\', 'u', '0', '0', hexDigitChar (c.toNat / 16), hexDigitChar (c.toNat % 16)] := by
      simp [escChar, h1, h2, h3, h4, h5, h6, h7, h8]
    rw [he]
    have hhi : c.toNat / 16 < 16 := by omega
    have hlo : c.toNat % 16 < 16 := by omega
    rw [List.cons_append, List.cons_append, List.cons_append, List.cons_append,
      List.cons_append, List.cons_append, List.nil_append]
    rw [unescBody.eq_def]
    have h0 : hexVal '0' = some 0 := rfl
    simp only [reduceIte, h0, hexVal_hexDigitChar _ hhi, hexVal_hexDigitChar _ hlo]
    have hn : ((0 * 16 + 0) * 16 + c.toNat / 16) * 16 + c.toNat % 16 = c.toNat := by omega
    rw [hn, Char.ofNat_toNat]
  · have he : escChar c = [c] := by
      simp [escChar, h1, h2, h3, h4, h5, h6, h7, h8]
    rw [he, List.cons_append, List.nil_append]
    exact unescBody_plain c h2 r

theorem unescBody_escBody (s : List Char) : unescBody (escBody s) = some s := by
  induction s with
  | nil => exact unescBody_nil
  | cons c cs ih => rw [escBody, unescBody_escChar, ih]; rfl

theorem escBody_inj {s t : List Char} (h : escBody s = escBody t) : s = t := by
  have h1 := unescBody_escBody s
  rw [h, unescBody_escBody t] at h1
  exact (Option.some.injEq _ _ ▸ h1).symm

theorem string_data_inj {s t : String} (h : s.data = t.data) : s = t :=
  congrArg String.mk h

theorem quoteChars_inj {s t : String} (h : quoteChars s = quoteChars t) : s = t := by
  unfold quoteChars at h
  have h1 : escBody s.data ++ ['"'] = escBody t.data ++ ['"'] := by
    exact (List.cons.injEq _ _ _ _ ▸ h).2
  exact string_data_inj (escBody_inj (List.append_cancel_right h1))

theorem serC_null : serC .null = ['n', 'u', 'l', 'l'] := by simp [serC]

theorem serC_true : serC (.bool true) = ['t', 'r', 'u', 'e'] := by simp [serC]

theorem serC_false : serC (.bool false) = ['f', 'a', 'l', 's', 'e'] := by simp [serC]

theorem serC_num (n : Int) : serC (.num n) = intChars n := by simp [serC]

theorem serC_str (s : String) : serC (.str s) = quoteChars s := by simp [serC]

theorem serC_arr (xs : List Json) : serC (.arr xs) = '[' :: (serElems xs ++ [']']) := by
  simp [serC]

theorem serC_obj (ms : List (String × Json)) :
    serC (.obj ms) = lbraceC :: (serFields ms ++ [rbraceC]) := by
  simp [serC]

/-- The first character of a serialized number is `-` or a decimal digit. -/
theorem intChars_head_toNat (n : Int) :
    ∃ c t, intChars n = c :: t ∧ (c.toNat = 45 ∨ (48 ≤ c.toNat ∧ c.toNat ≤ 57)) := by
  unfold intChars
  by_cases h : n < 0
  · exact ⟨'-', natDigits n.natAbs, by simp [h], Or.inl (by decide)⟩
  · obtain ⟨d, t, hd, ht⟩ := natDigits_head n.toNat
    refine ⟨decDigitChar d, t, by simp [h, ht], Or.inr ?_⟩
    rw [decDigitChar_toNat d hd]
    omega

/-- Serialization distinguishes any two distinct primitive values
(`null`, booleans, numbers, strings). -/
theorem serC_prim_inj : ∀ a b : Json, isPrimB a = true → isPrimB b = true →
    serC a = serC b → a = b := by
  intro a b ha hb h
  cases a <;> cases b <;> try rfl
  all_goals try simp [isPrimB] at ha hb
  -- same-constructor cases
  case bool.bool x y =>
    cases x <;> cases y <;> first
      | rfl
      | (rw [serC_true, serC_false] at h; exact absurd (List.head_eq_of_cons_eq h) (by decide))
  case num.num m n =>
    rw [serC_num, serC_num] at h
    rw [intChars_inj h]
  case str.str s t =>
    rw [serC_str, serC_str] at h
    rw [quoteChars_inj h]
  -- cross-constructor cases involving num: head character classes differ
  case null.num n =>
    obtain ⟨c, t, hct, hc⟩ := intChars_head_toNat n
    rw [serC_null, serC_num, hct] at h
    have h1 : 'n' = c := List.head_eq_of_cons_eq h
    subst h1
    have : ('n').toNat = 110 := by decide
    omega
  case num.null n =>
    obtain ⟨c, t, hct, hc⟩ := intChars_head_toNat n
    rw [serC_null, serC_num, hct] at h
    have h1 : c = 'n' := List.head_eq_of_cons_eq h
    subst h1
    have : ('n').toNat = 110 := by decide
    omega
  case bool.num x n =>
    obtain ⟨c, t, hct, hc⟩ := intChars_head_toNat n
    rw [serC_num, hct] at h
    cases x
    · rw [serC_false] at h
      have h1 : 'f' = c := List.head_eq_of_cons_eq h
      subst h1
      have : ('f').toNat = 102 := by decide
      omega
    · rw [serC_true] at h
      have h1 : 't' = c := List.head_eq_of_cons_eq h
      subst h1
      have : ('t').toNat = 116 := by decide
      omega
  case num.bool n x =>
    obtain ⟨c, t, hct, hc⟩ := intChars_head_toNat n
    rw [serC_num, hct] at h
    cases x
    · rw [serC_false] at h
      have h1 : c = 'f' := List.head_eq_of_cons_eq h
      subst h1
      have : ('f').toNat = 102 := by decide
      omega
    · rw [serC_true] at h
      have h1 : c = 't' := List.head_eq_of_cons_eq h
      subst h1
      have : ('t').toNat = 116 := by decide
      omega
  case num.str n s =>
    obtain ⟨c, t, hct, hc⟩ := intChars_head_toNat n
    rw [serC_num, serC_str, hct] at h
    have h1 : c = '"' := List.head_eq_of_cons_eq h
    subst h1
    have : ('"').toNat = 34 := by decide
    omega
  case str.num s n =>
    obtain ⟨c, t, hct, hc⟩ := intChars_head_toNat n
    rw [serC_num, serC_str, hct] at h
    have h1 : '"' = c := List.head_eq_of_cons_eq h
    subst h1
    have : ('"').toNat = 34 := by decide
    omega
  -- remaining cross cases: distinct constant head characters
  case null.bool x =>
    cases x <;> [rw [serC_null, serC_false] at h; rw [serC_null, serC_true] at h] <;>
      exact absurd (List.head_eq_of_cons_eq h) (by decide)
  case bool.null x =>
    cases x <;> [rw [serC_null, serC_false] at h; rw [serC_null, serC_true] at h] <;>
      exact absurd (List.head_eq_of_cons_eq h) (by decide)
  case null.str s =>
    rw [serC_null, serC_str] at h
    exact absurd (List.head_eq_of_cons_eq h) (by decide)
  case str.null s =>
    rw [serC_null, serC_str] at h
    exact absurd (List.head_eq_of_cons_eq h) (by decide)
  case bool.str x s =>
    cases x <;> [rw [serC_false, serC_str] at h; rw [serC_true, serC_str] at h] <;>
      exact absurd (List.head_eq_of_cons_eq h) (by decide)
  case str.bool s x =>
    cases x <;> [rw [serC_false, serC_str] at h; rw [serC_true, serC_str] at h] <;>
      exact absurd (List.head_eq_of_cons_eq h) (by decide)

/-- Only a string serializes like a string. -/
theorem serC_str_inv : ∀ z : Json, ∀ t : String, serC z = serC (.str t) → z = .str t := by
  intro z t h
  cases z
  case str s =>
    rw [serC_str, serC_str] at h
    rw [quoteChars_inj h]
  case null =>
    rw [serC_null, serC_str] at h
    exact absurd (List.head_eq_of_cons_eq h) (by decide)
  case bool x =>
    cases x <;> [rw [serC_false, serC_str] at h; rw [serC_true, serC_str] at h] <;>
      exact absurd (List.head_eq_of_cons_eq h) (by decide)
  case num n =>
    obtain ⟨c, u, hct, hc⟩ := intChars_head_toNat n
    rw [serC_num, serC_str, hct] at h
    have h1 : c = '"' := List.head_eq_of_cons_eq h
    subst h1
    have : ('"').toNat = 34 := by decide
    omega
  case arr xs =>
    rw [serC_arr, serC_str] at h
    exact absurd (List.head_eq_of_cons_eq h) (by decide)
  case obj ms =>
    rw [serC_obj, serC_str] at h
    have h1 : lbraceC = '"' := List.head_eq_of_cons_eq h
    exact absurd h1 (by decide)

theorem sortKeys_null : sortKeys .null = .null := by simp [sortKeys]

theorem sortKeys_bool (b : Bool) : sortKeys (.bool b) = .bool b := by simp [sortKeys]

theorem sortKeys_num (n : Int) : sortKeys (.num n) = .num n := by simp [sortKeys]

theorem sortKeys_str (s : String) : sortKeys (.str s) = .str s := by simp [sortKeys]

theorem sortKeys_arr (xs : List Json) : sortKeys (.arr xs) = .arr (sortKeysList xs) := by
  simp [sortKeys]

theorem sortKeys_obj (ms : List (String × Json)) :
    sortKeys (.obj ms) = .obj (insertionSortPairs (sortKeysPairs ms)) := by
  simp [sortKeys]

/-- Only a string canonicalizes to a string. -/
theorem sortKeys_str_inv : ∀ z : Json, ∀ s : String, sortKeys z = .str s → z = .str s := by
  intro z s h
  cases z <;> simp only [sortKeys_null, sortKeys_bool, sortKeys_num, sortKeys_str,
    sortKeys_arr, sortKeys_obj] at h <;> first | exact h | cases h

/-- `sortKeys` fixes primitives. -/
theorem sortKeys_prim (v : Json) (hv : isPrimB v = true) : sortKeys v = v := by
  cases v <;> simp_all [isPrimB, sortKeys_null, sortKeys_bool, sortKeys_num, sortKeys_str]

/-! ## Field-list lemmas: the sorted association lists `sortKeys` produces -/

def keysOf (l : List (String × Json)) : List String := l.map Prod.fst

def SortedK (l : List (String × Json)) : Prop :=
  l.Pairwise (fun x y => strLtB y.1 x.1 = false)

theorem charToNat_inj {c d : Char} (h : c.toNat = d.toNat) : c = d :=
  Char.ext (UInt32.ext h)

theorem charsLt_asymm : ∀ {l₁ l₂ : List Char},
    charsLt l₁ l₂ = true → charsLt l₂ l₁ = false := by
  intro l₁
  induction l₁ with
  | nil =>
    intro l₂ h
    cases l₂ with
    | nil => simp [charsLt] at h
    | cons b bs => simp [charsLt]
  | cons a as ih =>
    intro l₂ h
    cases l₂ with
    | nil => simp [charsLt] at h
    | cons b bs =>
      rw [Bool.eq_false_iff]
      intro hc
      simp only [charsLt, Bool.or_eq_true, Bool.and_eq_true, decide_eq_true_eq,
        beq_iff_eq] at h hc
      rcases h with h | ⟨he, hrec⟩ <;> rcases hc with hc | ⟨hce, hcrec⟩
      · omega
      · omega
      · omega
      · rw [ih hrec] at hcrec
        cases hcrec

theorem charsLt_trans : ∀ {l₁ l₂ l₃ : List Char},
    charsLt l₁ l₂ = true → charsLt l₂ l₃ = true → charsLt l₁ l₃ = true := by
  intro l₁
  induction l₁ with
  | nil =>
    intro l₂ l₃ h1 h2
    cases l₃ with
    | cons c cs => simp [charsLt]
    | nil =>
      cases l₂ with
      | nil => simp [charsLt] at h1
      | cons b bs => simp [charsLt] at h2
  | cons a as ih =>
    intro l₂ l₃ h1 h2
    cases l₂ with
    | nil => simp [charsLt] at h1
    | cons b bs =>
      cases l₃ with
      | nil => simp [charsLt] at h2
      | cons c cs =>
        simp only [charsLt, Bool.or_eq_true, Bool.and_eq_true, decide_eq_true_eq,
          beq_iff_eq] at h1 h2 ⊢
        rcases h1 with h1 | ⟨he1, hr1⟩ <;> rcases h2 with h2 | ⟨he2, hr2⟩
        · exact Or.inl (by omega)
        · exact Or.inl (by omega)
        · exact Or.inl (by omega)
        · exact Or.inr ⟨by omega, ih hr1 hr2⟩

theorem charsLt_conn : ∀ {l₁ l₂ : List Char},
    charsLt l₁ l₂ = false → charsLt l₂ l₁ = false → l₁ = l₂ := by
  intro l₁
  induction l₁ with
  | nil =>
    intro l₂ h1 _
    cases l₂ with
    | nil => rfl
    | cons b bs => simp [charsLt] at h1
  | cons a as ih =>
    intro l₂ h1 h2
    cases l₂ with
    | nil => simp [charsLt] at h2
    | cons b bs =>
      simp only [charsLt, Bool.or_eq_false_iff, Bool.and_eq_false_iff,
        decide_eq_false_iff_not, Nat.not_lt] at h1 h2
      have hab : a.toNat = b.toNat := by omega
      have hc : a = b := charToNat_inj hab
      subst hc
      rcases h1.2 with h1' | h1'
      · simp at h1'
      · rcases h2.2 with h2' | h2'
        · simp at h2'
        · rw [ih h1' h2']

theorem strLtB_asymm {a b : String} (h : strLtB a b = true) : strLtB b a = false :=
  charsLt_asymm h

theorem strLtB_trans {a b c : String} (h1 : strLtB a b = true)
    (h2 : strLtB b c = true) : strLtB a c = true :=
  charsLt_trans h1 h2

theorem strLtB_conn {a b : String} (h1 : strLtB a b = false)
    (h2 : strLtB b a = false) : a = b :=
  string_data_inj (charsLt_conn h1 h2)

theorem insertSorted_perm (p : String × Json) (l : List (String × Json)) :
    List.Perm (insertSorted p l) (p :: l) := by
  induction l with
  | nil => exact List.Perm.refl _
  | cons q qs ih =>
    rw [insertSorted]
    split
    · exact List.Perm.refl _
    · exact ((ih.cons q).trans (List.Perm.swap p q qs))

theorem insertionSortPairs_perm (l : List (String × Json)) :
    List.Perm (insertionSortPairs l) l := by
  induction l with
  | nil => exact List.Perm.refl _
  | cons p ps ih => exact (insertSorted_perm p (insertionSortPairs ps)).trans (ih.cons p)

theorem insertSorted_sorted (p : String × Json) (l : List (String × Json))
    (h : SortedK l) : SortedK (insertSorted p l) := by
  induction l with
  | nil => simp [insertSorted, SortedK]
  | cons q qs ih =>
    rw [insertSorted]
    rcases List.pairwise_cons.mp h with ⟨hq, hqs⟩
    split
    · next hlt =>
      refine List.pairwise_cons.mpr ⟨?_, h⟩
      intro x hx
      rcases List.mem_cons.mp hx with rfl | hx
      · exact strLtB_asymm hlt
      · rw [Bool.eq_false_iff]
        intro hc
        exact absurd (strLtB_trans hc hlt) (by simp [hq x hx])
    · next hge =>
      refine List.pairwise_cons.mpr ⟨?_, ih hqs⟩
      intro x hx
      have hx' : x ∈ p :: qs := (insertSorted_perm p qs).mem_iff.mp hx
      rcases List.mem_cons.mp hx' with rfl | hx'
      · exact Bool.not_eq_true _ ▸ hge
      · exact hq x hx'

theorem insertionSortPairs_sorted (l : List (String × Json)) :
    SortedK (insertionSortPairs l) := by
  induction l with
  | nil => simp [insertionSortPairs, SortedK]
  | cons p ps ih => exact insertSorted_sorted p _ ih

theorem keysOf_cons (a : String × Json) (l : List (String × Json)) :
    keysOf (a :: l) = a.1 :: keysOf l := rfl

theorem keysOf_perm {l₁ l₂ : List (String × Json)} (h : List.Perm l₁ l₂) :
    List.Perm (keysOf l₁) (keysOf l₂) := h.map Prod.fst

theorem lookup_eq_none_keys {k : String} :
    ∀ {l : List (String × Json)}, k ∉ keysOf l → l.lookup k = none := by
  intro l
  induction l with
  | nil => intro _; rfl
  | cons a rest ih =>
    intro h
    rw [keysOf_cons] at h
    have h1 : k ≠ a.1 := fun he => h (he ▸ List.mem_cons_self _ _)
    have h2 : k ∉ keysOf rest := fun hm => h (List.mem_cons_of_mem _ hm)
    obtain ⟨a1, a2⟩ := a
    simp only [List.lookup, beq_false_of_ne h1]
    exact ih h2

theorem lookup_mem_keys {k : String} {v : Json} :
    ∀ {l : List (String × Json)}, l.lookup k = some v → k ∈ keysOf l := by
  intro l
  induction l with
  | nil => intro h; simp [List.lookup] at h
  | cons a rest ih =>
    intro h
    obtain ⟨a1, a2⟩ := a
    rw [keysOf_cons]
    by_cases hk : k = a1
    · exact hk ▸ List.mem_cons_self _ _
    · simp only [List.lookup, beq_false_of_ne hk] at h
      exact List.mem_cons_of_mem _ (ih h)

theorem lookup_of_perm (k : String) :
    ∀ {l₁ l₂ : List (String × Json)}, List.Perm l₁ l₂ → (keysOf l₁).Nodup →
      l₁.lookup k = l₂.lookup k := by
  intro l₁ l₂ h
  induction h with
  | nil => intro _; rfl
  | cons x h ih =>
    intro hn
    rw [keysOf_cons] at hn
    obtain ⟨x1, x2⟩ := x
    simp only [List.lookup]
    cases hb : k == x1
    · exact ih (List.nodup_cons.mp hn).2
    · rfl
  | swap x y l =>
    intro hn
    obtain ⟨x1, x2⟩ := x
    obtain ⟨y1, y2⟩ := y
    rw [keysOf_cons, keysOf_cons] at hn
    have hxy : x1 ≠ y1 := by
      intro he
      exact (List.nodup_cons.mp hn).1 (he ▸ List.mem_cons_self _ _)
    simp only [List.lookup]
    cases hb : k == y1 <;> cases hb2 : k == x1 <;> try rfl
    have h1 : k = y1 := beq_iff_eq.mp hb
    have h2 : k = x1 := beq_iff_eq.mp hb2
    exact absurd (h2 ▸ h1) hxy
  | trans h₁ h₂ ih₁ ih₂ =>
    intro hn
    rw [ih₁ hn]
    exact ih₂ ((keysOf_perm h₁).nodup_iff.mp hn)

theorem split_of_lookup {k : String} {v : Json} :
    ∀ {l : List (String × Json)}, l.lookup k = some v →
      ∃ pre post, l = pre ++ (k, v) :: post ∧ k ∉ keysOf pre := by
  intro l
  induction l with
  | nil => intro h; simp [List.lookup] at h
  | cons a rest ih =>
    intro h
    obtain ⟨a1, a2⟩ := a
    by_cases hk : k = a1
    · subst hk
      simp only [List.lookup, beq_self_eq_true] at h
      refine ⟨[], rest, ?_, by simp [keysOf]⟩
      simp at h
      rw [h]
      rfl
    · simp only [List.lookup, beq_false_of_ne hk] at h
      obtain ⟨pre, post, heq, hpre⟩ := ih h
      refine ⟨(a1, a2) :: pre, post, by simp [heq], ?_⟩
      rw [keysOf_cons]
      intro hm
      rcases List.mem_cons.mp hm with h1 | h1
      · exact hk h1
      · exact hpre h1

/-- Two sorted, duplicate-free association lists with the same key set and
the same lookup function are equal. -/
theorem sorted_key_ext :
    ∀ {S₁ S₂ : List (String × Json)}, SortedK S₁ → SortedK S₂ →
      (keysOf S₁).Nodup → (keysOf S₂).Nodup → List.Perm (keysOf S₁) (keysOf S₂) →
      (∀ k, S₁.lookup k = S₂.lookup k) → S₁ = S₂ := by
  intro S₁
  induction S₁ with
  | nil =>
    intro S₂ _ _ _ _ hp _
    have : keysOf S₂ = [] := hp.symm.eq_nil
    cases S₂ with
    | nil => rfl
    | cons y u => rw [keysOf_cons] at this; cases this
  | cons x t ih =>
    intro S₂ hs₁ hs₂ hn₁ hn₂ hp hl
    cases S₂ with
    | nil =>
      have : keysOf (x :: t) = [] := hp.eq_nil
      rw [keysOf_cons] at this
      cases this
    | cons y u =>
      obtain ⟨x1, x2⟩ := x
      obtain ⟨y1, y2⟩ := y
      rw [keysOf_cons] at hn₁ hn₂ hp
      rw [keysOf_cons] at hp
      have hxmem : x1 ∈ y1 :: keysOf u := hp.mem_iff.mp (List.mem_cons_self _ _)
      have hymem : y1 ∈ x1 :: keysOf t := hp.mem_iff.mpr (List.mem_cons_self _ _)
      have hkey : x1 = y1 := by
        rcases List.mem_cons.mp hxmem with h1 | h1
        · exact h1
        · rcases List.mem_cons.mp hymem with h2 | h2
          · exact h2.symm
          · simp only [keysOf, List.mem_map] at h1 h2
            obtain ⟨e1, he1, hk1⟩ := h1
            obtain ⟨e2, he2, hk2⟩ := h2
            have hyx : strLtB x1 y1 = false :=
              hk1 ▸ (List.pairwise_cons.mp hs₂).1 e1 he1
            have hxy : strLtB y1 x1 = false :=
              hk2 ▸ (List.pairwise_cons.mp hs₁).1 e2 he2
            exact strLtB_conn hyx hxy
      subst hkey
      have hval : x2 = y2 := by
        have h0 := hl x1
        simp only [List.lookup, beq_self_eq_true] at h0
        simpa using h0
      subst hval
      have hperm' : List.Perm (keysOf t) (keysOf u) := hp.cons_inv
      have hxt : x1 ∉ keysOf t := (List.nodup_cons.mp hn₁).1
      have hxu : x1 ∉ keysOf u := (List.nodup_cons.mp hn₂).1
      have hl' : ∀ k, t.lookup k = u.lookup k := by
        intro k
        by_cases hk : k = x1
        · subst hk
          rw [lookup_eq_none_keys hxt, lookup_eq_none_keys hxu]
        · have h0 := hl k
          simpa only [List.lookup, beq_false_of_ne hk] using h0
      rw [ih (List.pairwise_cons.mp hs₁).2 (List.pairwise_cons.mp hs₂).2
        (List.nodup_cons.mp hn₁).2 (List.nodup_cons.mp hn₂).2 hperm' hl']

/-! ## Cancellation: two objects that differ in exactly one field value -/

theorem serFields_nil : serFields [] = [] := by simp [serFields]

theorem serFields_single (k : String) (v : Json) :
    serFields [(k, v)] = quoteChars k ++ ':' :: serC v := by simp [serFields]

theorem serFields_cons2 (k : String) (v : Json) (f : String × Json)
    (rest : List (String × Json)) :
    serFields ((k, v) :: f :: rest) =
      quoteChars k ++ ':' :: serC v ++ ',' :: serFields (f :: rest) := by
  simp [serFields]

theorem serFields_cons_ne_nil (f : String × Json) (l : List (String × Json))
    (h : l ≠ []) :
    serFields (f :: l) = quoteChars f.1 ++ ':' :: serC f.2 ++ ',' :: serFields l := by
  cases l with
  | nil => exact absurd rfl h
  | cons g gs =>
    obtain ⟨f1, f2⟩ := f
    exact serFields_cons2 f1 f2 g gs

theorem serFields_inner_cancel :
    ∀ (pre : List (String × Json)) (k : String) (a b : Json)
      (post : List (String × Json)),
      serFields (pre ++ (k, a) :: post) = serFields (pre ++ (k, b) :: post) →
      serC a = serC b := by
  intro pre
  induction pre with
  | nil =>
    intro k a b post h
    cases post with
    | nil =>
      simp only [List.nil_append, serFields_single] at h
      have h2 := List.append_cancel_left h
      exact (List.cons.injEq _ _ _ _ ▸ h2).2
    | cons f rest =>
      simp only [List.nil_append, serFields_cons2] at h
      rw [List.append_assoc, List.append_assoc] at h
      have h2 := List.append_cancel_left h
      have h3 : serC a ++ ',' :: serFields (f :: rest) =
          serC b ++ ',' :: serFields (f :: rest) := by
        have := (List.cons.injEq _ _ _ _ ▸ h2).2
        simpa [List.append_assoc] using this
      exact List.append_cancel_right h3
  | cons f pre ih =>
    intro k a b post h
    have hne : pre ++ (k, a) :: post ≠ [] := by simp
    have hne' : pre ++ (k, b) :: post ≠ [] := by simp
    rw [List.cons_append, serFields_cons_ne_nil f _ hne,
      List.cons_append, serFields_cons_ne_nil f _ hne'] at h
    rw [List.append_assoc, List.append_assoc] at h
    have h2 := List.append_cancel_left h
    have h3 := (List.cons.injEq _ _ _ _ ▸ h2).2
    have h4 : serFields (pre ++ (k, a) :: post) = serFields (pre ++ (k, b) :: post) := by
      have h5 := List.append_cancel_left (by simpa [List.append_assoc] using h3 :
        serC f.2 ++ ',' :: serFields (pre ++ (k, a) :: post) =
          serC f.2 ++ ',' :: serFields (pre ++ (k, b) :: post))
      exact (List.cons.injEq _ _ _ _ ▸ h5).2
    exact ih k a b post h4

/-- If two objects agree except at one field value, equal serializations
force equal serializations of that value. -/
theorem serObj_inner_cancel (pre : List (String × Json)) (k : String) (a b : Json)
    (post : List (String × Json))
    (h : serC (.obj (pre ++ (k, a) :: post)) = serC (.obj (pre ++ (k, b) :: post))) :
    serC a = serC b := by
  rw [serC_obj, serC_obj] at h
  have h2 := (List.cons.injEq _ _ _ _ ▸ h).2
  exact serFields_inner_cancel pre k a b post (List.append_cancel_right h2)

theorem sortKeysPairs_eq_map (l : List (String × Json)) :
    sortKeysPairs l = l.map (fun e => (e.1, sortKeys e.2)) := by
  induction l with
  | nil => simp [sortKeysPairs]
  | cons e rest ih =>
    obtain ⟨k, v⟩ := e
    simp [sortKeysPairs, ih]

theorem keysOf_map_val (f : Json → Json) (l : List (String × Json)) :
    keysOf (l.map (fun e => (e.1, f e.2))) = keysOf l := by
  induction l with
  | nil => rfl
  | cons e rest ih =>
    obtain ⟨a1, a2⟩ := e
    simp only [List.map_cons, keysOf_cons]
    rw [ih]

theorem lookup_map_val (k : String) (f : Json → Json) (l : List (String × Json)) :
    List.lookup k (l.map (fun e => (e.1, f e.2))) = (List.lookup k l).map f := by
  induction l with
  | nil => rfl
  | cons e rest ih =>
    obtain ⟨a1, a2⟩ := e
    simp only [List.map_cons, List.lookup]
    cases hb : k == a1
    · exact ih
    · rfl

theorem keysOf_upd (k : String) (g : Json → Json) (l : List (String × Json)) :
    keysOf (l.map (fun e => if e.1 == k then (e.1, g e.2) else e)) = keysOf l := by
  induction l with
  | nil => rfl
  | cons e rest ih =>
    obtain ⟨a1, a2⟩ := e
    simp only [List.map_cons, keysOf_cons]
    rw [ih]
    by_cases hb : a1 = k
    · subst hb
      simp
    · simp [beq_false_of_ne hb]

theorem lookup_upd_self (k : String) (g : Json → Json) (l : List (String × Json)) :
    List.lookup k (l.map (fun e => if e.1 == k then (e.1, g e.2) else e)) =
      (List.lookup k l).map g := by
  induction l with
  | nil => rfl
  | cons e rest ih =>
    obtain ⟨a1, a2⟩ := e
    simp only [List.map_cons, beq_iff_eq] at ih ⊢
    by_cases hb : a1 = k
    · subst hb
      rw [if_pos rfl]
      simp [List.lookup]
    · rw [if_neg hb]
      have hb2 : (k == a1) = false := beq_false_of_ne (Ne.symm hb)
      simp only [List.lookup, hb2]
      exact ih

theorem lookup_upd_other (j k : String) (hjk : j ≠ k) (g : Json → Json)
    (l : List (String × Json)) :
    List.lookup j (l.map (fun e => if e.1 == k then (e.1, g e.2) else e)) =
      List.lookup j l := by
  induction l with
  | nil => rfl
  | cons e rest ih =>
    obtain ⟨a1, a2⟩ := e
    simp only [List.map_cons, beq_iff_eq] at ih ⊢
    by_cases hb : a1 = k
    · subst hb
      rw [if_pos rfl]
      have hb2 : (j == a1) = false := beq_false_of_ne hjk
      simp only [List.lookup, hb2]
      exact ih
    · rw [if_neg hb]
      simp only [List.lookup]
      cases j == a1
      · exact ih
      · rfl

theorem keysOf_append (l₁ l₂ : List (String × Json)) :
    keysOf (l₁ ++ l₂) = keysOf l₁ ++ keysOf l₂ := List.map_append _ _ _

theorem lookup_append_cons {k : String} (pre post : List (String × Json)) (a : Json)
    (hk : k ∉ keysOf pre) :
    List.lookup k (pre ++ (k, a) :: post) = some a := by
  induction pre with
  | nil => simp [List.lookup]
  | cons e rest ih =>
    obtain ⟨a1, a2⟩ := e
    rw [keysOf_cons] at hk
    have h1 : k ≠ a1 := fun he => hk (he ▸ List.mem_cons_self _ _)
    simp only [List.cons_append, List.lookup, beq_false_of_ne h1]
    exact ih (fun hm => hk (List.mem_cons_of_mem _ hm))

theorem lookup_append_cons_ne {j k : String} (hjk : j ≠ k)
    (pre post : List (String × Json)) (a b : Json) :
    List.lookup j (pre ++ (k, a) :: post) = List.lookup j (pre ++ (k, b) :: post) := by
  induction pre with
  | nil => simp [List.lookup, beq_false_of_ne hjk]
  | cons e rest ih =>
    obtain ⟨a1, a2⟩ := e
    simp only [List.cons_append, List.lookup]
    cases j == a1
    · exact ih
    · rfl

theorem sortedK_iff_keys (l : List (String × Json)) :
    SortedK l ↔ (keysOf l).Pairwise (fun x y => strLtB y x = false) := by
  rw [keysOf, List.pairwise_map]
  rfl

/-! ## nodup bookkeeping -/

theorem nodupKeyList_nodup : ∀ {l : List String}, nodupKeyList l = true → l.Nodup := by
  intro l
  induction l with
  | nil => intro _; exact List.nodup_nil
  | cons k ks ih =>
    intro h
    simp only [nodupKeyList, Bool.and_eq_true, Bool.not_eq_true'] at h
    refine List.nodup_cons.mpr ⟨?_, ih h.2⟩
    intro hm
    simp [hm] at h

theorem lookup_mem_pair {k : String} {v : Json} :
    ∀ {l : List (String × Json)}, l.lookup k = some v → (k, v) ∈ l := by
  intro l
  induction l with
  | nil => intro h; simp [List.lookup] at h
  | cons e rest ih =>
    intro h
    obtain ⟨a1, a2⟩ := e
    by_cases hk : k = a1
    · subst hk
      simp only [List.lookup, beq_self_eq_true] at h
      simp at h
      simp [h]
    · simp only [List.lookup, beq_false_of_ne hk] at h
      exact List.mem_cons_of_mem _ (ih h)

theorem nodupPairsB_mem : ∀ {l : List (String × Json)} {k : String} {v : Json},
    nodupPairsB l = true → (k, v) ∈ l → nodupB v = true := by
  intro l
  induction l with
  | nil => intro k v _ hm; cases hm
  | cons e rest ih =>
    intro k v h hm
    obtain ⟨a1, a2⟩ := e
    simp only [nodupPairsB, Bool.and_eq_true] at h
    rcases List.mem_cons.mp hm with h1 | h1
    · cases h1
      exact h.1
    · exact ih h.2 h1

theorem nodupB_obj_keys {ms : List (String × Json)} (h : nodupB (.obj ms) = true) :
    (keysOf ms).Nodup := by
  simp only [nodupB, Bool.and_eq_true] at h
  exact nodupKeyList_nodup h.1

theorem nodupB_obj_pairs {ms : List (String × Json)} (h : nodupB (.obj ms) = true) :
    nodupPairsB ms = true := by
  simp only [nodupB, Bool.and_eq_true] at h
  exact h.2

/-- Lookup of a value through the canonical sorted field list. -/
theorem lookup_sorted (j : String) (l : List (String × Json))
    (hn : (keysOf l).Nodup) :
    List.lookup j (insertionSortPairs (sortKeysPairs l)) =
      (List.lookup j l).map sortKeys := by
  have hkeys : keysOf (sortKeysPairs l) = keysOf l := by
    rw [sortKeysPairs_eq_map, keysOf_map_val]
  have hperm := insertionSortPairs_perm (sortKeysPairs l)
  have hn' : (keysOf (insertionSortPairs (sortKeysPairs l))).Nodup :=
    (keysOf_perm hperm).nodup_iff.mpr (hkeys ▸ hn)
  rw [lookup_of_perm j hperm hn', sortKeysPairs_eq_map, lookup_map_val]

theorem keysOf_sortKeysPairs (l : List (String × Json)) :
    keysOf (sortKeysPairs l) = keysOf l := by
  rw [sortKeysPairs_eq_map, keysOf_map_val]

/-- Replacing the value at a valid path of object keys by a value with a
different canonical serialization changes the canonical serialization of
the whole structure.  This is the recursive-canonicalization property: a
change at any depth reaches the canonical bytes. -/
theorem sortKeys_setPath_ne :
    ∀ (ks : List String) (x v v' : Json),
      nodupB x = true → getPath x ks = some v →
      serC (sortKeys v') ≠ serC (sortKeys v) →
      serC (sortKeys (setPath x ks v')) ≠ serC (sortKeys x) := by
  intro ks
  induction ks with
  | nil =>
    intro x v v' _ hget hdiff
    simp only [getPath, Option.some.injEq] at hget
    subst hget
    simpa [setPath] using hdiff
  | cons k ks ih =>
    intro x v v' hn hget hdiff
    cases x with
    | null => simp [getPath] at hget
    | bool b => simp [getPath] at hget
    | num n => simp [getPath] at hget
    | str s => simp [getPath] at hget
    | arr xs => simp [getPath] at hget
    | obj ms =>
      simp only [getPath] at hget
      cases hu : ms.lookup k with
      | none => rw [hu] at hget; cases hget
      | some u =>
        rw [hu] at hget
        have hnk : (keysOf ms).Nodup := nodupB_obj_keys hn
        have hnu : nodupB u = true :=
          nodupPairsB_mem (nodupB_obj_pairs hn) (lookup_mem_pair hu)
        have hIH := ih u v v' hnu hget hdiff
        have hset : setPath (.obj ms) (k :: ks) v' =
            .obj (ms.map (fun e => if e.1 == k then (e.1, setPath e.2 ks v') else e)) := by
          simp [setPath]
        set S₁ := insertionSortPairs (sortKeysPairs
          (ms.map (fun e => if e.1 == k then (e.1, setPath e.2 ks v') else e))) with hS₁
        set S₂ := insertionSortPairs (sortKeysPairs ms) with hS₂
        have hkeysupd : keysOf
            (ms.map (fun e => if e.1 == k then (e.1, setPath e.2 ks v') else e)) =
            keysOf ms := keysOf_upd k (fun w => setPath w ks v') ms
        have hnkupd : (keysOf
            (ms.map (fun e => if e.1 == k then (e.1, setPath e.2 ks v') else e))).Nodup :=
          hkeysupd ▸ hnk
        have hlookS₂ : ∀ j, List.lookup j S₂ = (List.lookup j ms).map sortKeys :=
          fun j => lookup_sorted j ms hnk
        have hlookS₁ : ∀ j, List.lookup j S₁ =
            (List.lookup j (ms.map (fun e => if e.1 == k then (e.1, setPath e.2 ks v') else e))).map
              sortKeys :=
          fun j => lookup_sorted j _ hnkupd
        have hlookk : List.lookup k S₂ = some (sortKeys u) := by
          rw [hlookS₂ k, hu]; rfl
        obtain ⟨pre, post, hsplit, hkpre⟩ := split_of_lookup hlookk
        set A := sortKeys (setPath u ks v') with hA
        have hkeysS₂ : keysOf S₂ = keysOf pre ++ k :: keysOf post := by
          rw [hsplit, keysOf_append, keysOf_cons]
        have hsortS₂ : SortedK S₂ := insertionSortPairs_sorted _
        have hnkeyS₂ : (keysOf S₂).Nodup :=
          (keysOf_perm (insertionSortPairs_perm _)).nodup_iff.mpr
            (by rw [sortKeysPairs_eq_map, keysOf_map_val]; exact hnk)
        have hkeysS₁' : keysOf (pre ++ (k, A) :: post) = keysOf S₂ := by
          rw [keysOf_append, keysOf_cons, hkeysS₂]
        have hS1eq : S₁ = pre ++ (k, A) :: post := by
          apply sorted_key_ext (insertionSortPairs_sorted _) ?_ ?_ ?_ ?_ ?_
          · rw [sortedK_iff_keys, hkeysS₁']
            rw [sortedK_iff_keys] at hsortS₂
            exact hsortS₂
          · exact (keysOf_perm (insertionSortPairs_perm _)).nodup_iff.mpr
              (by rw [sortKeysPairs_eq_map, keysOf_map_val]; exact hnkupd)
          · rw [hkeysS₁']; exact hnkeyS₂
          · have h1 : List.Perm (keysOf S₁) (keysOf ms) := by
              have hp := keysOf_perm (insertionSortPairs_perm (sortKeysPairs
                (ms.map (fun e => if e.1 == k then (e.1, setPath e.2 ks v') else e))))
              rw [keysOf_sortKeysPairs, hkeysupd] at hp
              exact hp
            have h2 : List.Perm (keysOf S₂) (keysOf ms) := by
              have hp := keysOf_perm (insertionSortPairs_perm (sortKeysPairs ms))
              rw [keysOf_sortKeysPairs] at hp
              exact hp
            rw [hkeysS₁']
            exact h1.trans h2.symm
          · intro j
            by_cases hj : j = k
            · subst hj
              rw [hlookS₁ j, lookup_upd_self j (fun w => setPath w ks v') ms, hu,
                lookup_append_cons pre post A hkpre]
              rfl
            · rw [hlookS₁ j, lookup_upd_other j k hj (fun w => setPath w ks v') ms,
                lookup_append_cons_ne hj pre post A (sortKeys u), ← hsplit,
                hlookS₂ j]
        intro hcontra
        rw [hset, sortKeys_obj, sortKeys_obj, ← hS₁, ← hS₂, hS1eq, hsplit] at hcontra
        exact hIH (serObj_inner_cancel pre k A (sortKeys u) post hcontra)

/-! ## Explicit forms of built chains, and a concrete instantiation of the
cryptographic parameters used by the witnesses -/

/-- The proof list a sequence of `ProofChain.add` calls produces, given the
`previousHash` the first one sees. -/
def mkChainProofs (C : CryptoModel) (sk aid : String) :
    Json → List (String × Json × Json × Int) → List Json
  | _, [] => []
  | prev, (a, d, m, t) :: rest =>
      mkProofJ C sk a d aid prev m (C.toISO t) ::
        mkChainProofs C sk aid
          (.str (hashProofData C (createProofDataJ a d aid prev m (C.toISO t)))) rest

/-- The last-hash pointer after a sequence of `add` calls. -/
def chainNextPrev (C : CryptoModel) (aid : String) :
    Json → List (String × Json × Json × Int) → Json
  | prev, [] => prev
  | prev, (a, d, m, t) :: rest =>
      chainNextPrev C aid
        (.str (hashProofData C (createProofDataJ a d aid prev m (C.toISO t)))) rest

/-- Whether `verifyProof` warns that a created proof's timestamp lies more
than one minute in the future of the verification instant. -/
def futureWarnB (C : CryptoModel) (nowMs : Int) (ts : String) : Bool :=
  match C.getTime (.str ts) with
  | some t => decide (t > nowMs + 60000)
  | none => false

/-- The future-timestamp warnings the per-proof loop collects over a built
chain. -/
def chainFutureWarns (C : CryptoModel) (nowMs : Int) :
    List (String × Json × Json × Int) → Nat → List String
  | [], _ => []
  | (_, _, _, t) :: rest, i =>
      (if futureWarnB C nowMs (C.toISO t)
       then ["Proof " ++ toString i ++ ": Proof timestamp is in the future"]
       else [])
      ++ chainFutureWarns C nowMs rest (i + 1)

/-- Whether the linkage loop's temporal check fires between two stamped
timestamps: `currTime < prevTime - 1000`. -/
def tsLtB (C : CryptoModel) (tsPrev tsCurr : String) : Bool :=
  match C.getTime (.str tsCurr), C.getTime (.str tsPrev) with
  | some ct, some pt => decide (ct < pt - 1000)
  | _, _ => false

/-- The temporal warnings collected over a built chain whose previous
proof was stamped `tsPrev`. -/
def chainTimeWarns (C : CryptoModel) :
    String → List (String × Json × Json × Int) → Nat → List String
  | _, [], _ => []
  | tsPrev, (_, _, _, t) :: rest, i =>
      (if tsLtB C tsPrev (C.toISO t) then [earlierTimestampMsg i] else [])
      ++ chainTimeWarns C (C.toISO t) rest (i + 1)

/-! Equality of values up to key order at every nesting level: same
primitives, same array element order, and objects with the same key sets
and pointwise-related values. -/

mutual

def keyPermB : Json → Json → Bool
  | .null, .null => true
  | .bool a, .bool b => a == b
  | .num a, .num b => a == b
  | .str a, .str b => a == b
  | .arr xs, .arr ys => keyPermListB xs ys
  | .obj ms, .obj ns => ms.length == ns.length && keyPermPairsB ms ns
  | _, _ => false
  termination_by structural a => a

def keyPermListB : List Json → List Json → Bool
  | [], [] => true
  | x :: xs, y :: ys => keyPermB x y && keyPermListB xs ys
  | _, _ => false
  termination_by structural l => l

def keyPermPairsB : List (String × Json) → List (String × Json) → Bool
  | [], _ => true
  | (k, v) :: rest, ns =>
      (match ns.lookup k with
       | some w => keyPermB v w
       | none => false) && keyPermPairsB rest ns
  termination_by structural l => l

end

def digitValOpt (c : Char) : Option Nat :=
  if Nat.ble 48 c.toNat && Nat.ble c.toNat 57 then some (c.toNat - 48) else none

def decNatAux : List Char → Nat → Option Nat
  | [], acc => some acc
  | c :: cs, acc =>
      match digitValOpt c with
      | some d => decNatAux cs (acc * 10 + d)
      | none => none

def parseTimeChars : List Char → Option Int
  | [] => none
  | '-' :: rest =>
      match rest with
      | [] => none
      | _ => (decNatAux rest 0).map (fun n => -(n : Int))
  | l => (decNatAux l 0).map (fun n => (n : Int))

/-- A concrete, fully executable instantiation of the cryptographic and
date parameters, used by the witnesses and counterexamples: the "hash" is
the identity on canonical strings (injective), "signing" tags the
canonical bytes with the private key, and verification accepts exactly the
signature the matching private key `"sk-" ++ publicKey` would have
produced.  Timestamps are rendered as decimal epoch milliseconds. -/
def Cdef : CryptoModel := {
  hashFn := fun s => s
  signFn := fun c k => k ++ ":" ++ c
  privValid := fun _ => true
  checkSig := fun c sig pub => sig == "sk-" ++ pub ++ ":" ++ c
  getTime := fun j =>
    match j with
    | .str s => parseTimeChars s.data
    | .num n => some n
    | _ => none
  toISO := fun t => String.mk (intChars t)
}

/-! ## Verification of freshly created proofs -/

theorem objGet_mkProofJ_version (C : CryptoModel) (sk a aid : String)
    (d prev m : Json) (ts : String) :
    objGet (mkProofJ C sk a d aid prev m ts) "version" = some (.str PROOF_VERSION) := rfl

theorem objGet_mkProofJ_action (C : CryptoModel) (sk a aid : String)
    (d prev m : Json) (ts : String) :
    objGet (mkProofJ C sk a d aid prev m ts) "action" = some (.str a) := rfl

theorem objGet_mkProofJ_data (C : CryptoModel) (sk a aid : String)
    (d prev m : Json) (ts : String) :
    objGet (mkProofJ C sk a d aid prev m ts) "data" = some d := rfl

theorem objGet_mkProofJ_agentId (C : CryptoModel) (sk a aid : String)
    (d prev m : Json) (ts : String) :
    objGet (mkProofJ C sk a d aid prev m ts) "agentId" = some (.str aid) := rfl

theorem objGet_mkProofJ_previousHash (C : CryptoModel) (sk a aid : String)
    (d prev m : Json) (ts : String) :
    objGet (mkProofJ C sk a d aid prev m ts) "previousHash" = some prev := rfl

theorem objGet_mkProofJ_timestamp (C : CryptoModel) (sk a aid : String)
    (d prev m : Json) (ts : String) :
    objGet (mkProofJ C sk a d aid prev m ts) "timestamp" = some (.str ts) := rfl

theorem objGet_mkProofJ_metadata (C : CryptoModel) (sk a aid : String)
    (d prev m : Json) (ts : String) :
    objGet (mkProofJ C sk a d aid prev m ts) "metadata" = some m := rfl

theorem objGet_mkProofJ_hash (C : CryptoModel) (sk a aid : String)
    (d prev m : Json) (ts : String) :
    objGet (mkProofJ C sk a d aid prev m ts) "hash" =
      some (.str (hashProofData C (createProofDataJ a d aid prev m ts))) := rfl

theorem objGet_mkProofJ_signature (C : CryptoModel) (sk a aid : String)
    (d prev m : Json) (ts : String) :
    objGet (mkProofJ C sk a d aid prev m ts) "signature" =
      some (.str (C.signFn (canonicalJson (createProofDataJ a d aid prev m ts)) sk)) := rfl

/-- The hash/signature recomputation in verification reconstructs exactly
the object that was hashed and signed at creation. -/
theorem proofDataOf_mkProofJ (C : CryptoModel) (sk a aid : String)
    (d prev m : Json) (ts : String) :
    proofDataOf (mkProofJ C sk a d aid prev m ts) = createProofDataJ a d aid prev m ts := rfl

theorem createProofE_ok (C : CryptoModel) (sk a aid : String) (d prev m : Json)
    (ts : String) (hv : C.privValid sk = true) :
    createProofE C a d aid prev m ts (some sk) = .ok (mkProofJ C sk a d aid prev m ts) := by
  simp [createProofE, signProofDataE, hv, mkProofJ, hashProofData]
  rfl

theorem mkProofJ_ne_null (C : CryptoModel) (sk a aid : String)
    (d prev m : Json) (ts : String) :
    mkProofJ C sk a d aid prev m ts ≠ Json.null := by
  simp [mkProofJ]

/-- The canonical sorted form of the seven-field proof-data object. -/
theorem sortKeys_createProofDataJ (a aid : String) (d prev m : Json) (ts : String) :
    sortKeys (createProofDataJ a d aid prev m ts) =
      .obj [("action", .str a), ("agentId", .str aid), ("data", sortKeys d),
            ("metadata", sortKeys m), ("previousHash", sortKeys prev),
            ("timestamp", .str ts), ("version", .str PROOF_VERSION)] := by
  rw [createProofDataJ, sortKeys_obj]
  simp only [sortKeysPairs, sortKeys_str]
  rfl

theorem canonicalJson_ne {x y : Json} (h : serC (sortKeys x) ≠ serC (sortKeys y)) :
    canonicalJson x ≠ canonicalJson y :=
  fun hc => h (congrArg String.data hc)

theorem canonicalJson_congr {x y : Json} (h : serC (sortKeys x) = serC (sortKeys y)) :
    canonicalJson x = canonicalJson y := congrArg String.mk h

/-- A proof freshly created for `deriveAgentId C pub` verifies cleanly:
all required fields are present, and the agent-id, hash and signature
checks pass; the only possible output is the future-timestamp warning. -/
theorem verifyProofE_mkProofJ (C : CryptoModel) (nowMs : Int) (sk pub a : String)
    (d prev m : Json) (ts : String)
    (hsig : ∀ c, C.checkSig c (C.signFn c sk) pub = true) :
    verifyProofE C nowMs (some (mkProofJ C sk a d (deriveAgentId C pub) prev m ts)) pub =
      .ok { valid := true, errors := [],
            warnings := if futureWarnB C nowMs ts
                        then ["Proof timestamp is in the future"] else [] } := by
  have hmissing : requiredFields.filter
      (fun f => (objGet (mkProofJ C sk a d (deriveAgentId C pub) prev m ts) f).isNone) = [] := rfl
  have hagent : verifyAgentIdB C (mkProofJ C sk a d (deriveAgentId C pub) prev m ts) pub = true := by
    simp [verifyAgentIdB, objGet_mkProofJ_agentId]
  have hhash : verifyHashB C (mkProofJ C sk a d (deriveAgentId C pub) prev m ts) = true := by
    simp [verifyHashB, objGet_mkProofJ_hash, proofDataOf_mkProofJ]
  have hsigok : verifySignatureB C (mkProofJ C sk a d (deriveAgentId C pub) prev m ts) pub = true := by
    rw [verifySignatureB, objGet_mkProofJ_signature, proofDataOf_mkProofJ]
    exact hsig _
  have hread : readFieldE (some (mkProofJ C sk a d (deriveAgentId C pub) prev m ts))
      "version" = .ok (some (.str PROOF_VERSION)) := rfl
  rw [verifyProofE, hread]
  simp only [bind, Except.bind, hmissing, List.map_nil, List.isEmpty_nil, if_true,
    hagent, hhash, hsigok, objGet_mkProofJ_timestamp, timeOf, Option.some_bind,
    List.nil_append, List.append_nil]
  rw [futureWarnB]
  cases hgt : C.getTime (Json.str ts) with
  | none => rfl
  | some t =>
    by_cases hf : t > nowMs + 60000
    · simp [hf]
    · simp [hf]

theorem readFieldE_some {j : Json} (hj : j ≠ Json.null) (f : String) :
    readFieldE (some j) f = .ok (objGet j f) := by
  cases j <;> first | rfl | exact absurd rfl hj

/-! ## The result of `verifyChain` on a chain built by sequential `add` calls -/

theorem getLastHash_concat (C : CryptoModel) (sk a aid : String) (d prev m : Json)
    (ts : String) (ch : Chain) (l : List Json) :
    getLastHash { ch with proofs := l ++ [mkProofJ C sk a d aid prev m ts] } =
      .str (hashProofData C (createProofDataJ a d aid prev m ts)) := by
  simp only [getLastHash, List.getLast?_concat, objGet_mkProofJ_hash, Option.getD_some]

theorem buildChainGo_eq (C : CryptoModel) (sk : String) (hv : C.privValid sk = true) :
    ∀ (inputs : List (String × Json × Json × Int)) (ch : Chain),
      ch.keypair.privateKey = some sk →
      buildChainGo C ch inputs =
        .ok { ch with proofs := ch.proofs ++ mkChainProofs C sk ch.agentId (getLastHash ch) inputs } := by
  intro inputs
  induction inputs with
  | nil =>
    intro ch hk
    simp [buildChainGo, mkChainProofs]
  | cons inp rest ih =>
    intro ch hk
    obtain ⟨a, d, m, t⟩ := inp
    rw [buildChainGo, chainAdd, hk, createProofE_ok C sk a ch.agentId d (getLastHash ch) m (C.toISO t) hv]
    have hstep := ih { ch with proofs := ch.proofs ++ [mkProofJ C sk a d ch.agentId (getLastHash ch) m (C.toISO t)] } hk
    simp only [bind, Except.bind]
    rw [hstep]
    rw [getLastHash_concat]
    rw [mkChainProofs]
    simp [List.append_assoc]

theorem buildChain_eq (C : CryptoModel) (kp : Keypair) (created : String)
    (inputs : List (String × Json × Json × Int)) (sk : String)
    (hk : kp.privateKey = some sk) (hv : C.privValid sk = true) :
    buildChain C kp created inputs =
      .ok { chainNew C kp created with
            proofs := mkChainProofs C sk (deriveAgentId C kp.publicKey) .null inputs } := by
  rw [buildChain, buildChainGo_eq C sk hv inputs (chainNew C kp created) hk]
  rfl

theorem mkChainProofs_length (C : CryptoModel) (sk aid : String) :
    ∀ (inputs : List (String × Json × Json × Int)) (prev : Json),
      (mkChainProofs C sk aid prev inputs).length = inputs.length := by
  intro inputs
  induction inputs with
  | nil => intro prev; rfl
  | cons inp rest ih =>
    intro prev
    obtain ⟨a, d, m, t⟩ := inp
    rw [mkChainProofs]
    simp [ih]

theorem perProofE_mkChain (C : CryptoModel) (nowMs : Int) (sk pub : String)
    (hsig : ∀ c, C.checkSig c (C.signFn c sk) pub = true) :
    ∀ (inputs : List (String × Json × Json × Int)) (prev : Json) (i : Nat),
      perProofE C nowMs pub
        ((mkChainProofs C sk (deriveAgentId C pub) prev inputs).map some) i =
        .ok ([], chainFutureWarns C nowMs inputs i) := by
  intro inputs
  induction inputs with
  | nil => intro prev i; rfl
  | cons inp rest ih =>
    intro prev i
    obtain ⟨a, d, m, t⟩ := inp
    rw [mkChainProofs]
    simp only [List.map_cons]
    rw [perProofE, verifyProofE_mkProofJ C nowMs sk pub a d prev m (C.toISO t) hsig,
      chainFutureWarns]
    simp only [bind, Except.bind]
    rw [ih _ (i + 1)]
    by_cases hw : futureWarnB C nowMs (C.toISO t)
    · simp only [hw, if_true]
      have hmsg : "Proof " ++ toString i ++ ": " ++
          String.intercalate ", " ["Proof timestamp is in the future"] =
          "Proof " ++ toString i ++ ": Proof timestamp is in the future" := by
        have : String.intercalate ", " ["Proof timestamp is in the future"] =
            "Proof timestamp is in the future" := rfl
        rw [this]
        exact string_data_inj (by simp [String.data_append])
      simp [hmsg]
    · simp [hw]

theorem jsStrictEq_str_self (s : String) :
    jsStrictEq (some (.str s)) (some (.str s)) = true := by
  simp [jsStrictEq]

theorem jsStrictEq_some_str_iff (v : Json) (s : String) :
    jsStrictEq (some v) (some (.str s)) = true ↔ v = .str s := by
  cases v <;> simp [jsStrictEq]

theorem temporal_match_eq (o₁ o₂ : Option Int) (msg : List String) :
    (match o₁, o₂ with
     | some ct, some pt => if ct < pt - 1000 then msg else []
     | _, _ => ([] : List String)) =
    (if (match o₁, o₂ with
         | some ct, some pt => decide (ct < pt - 1000)
         | _, _ => false) = true then msg else []) := by
  cases o₁ <;> cases o₂ <;> simp

theorem linkageE_cons_mkChain (C : CryptoModel) (nowMs : Int) (sk aid : String) :
    ∀ (inputs : List (String × Json × Json × Int)) (i : Nat) (p₀ : Json)
      (H₀ TS₀ : String),
      objGet p₀ "hash" = some (.str H₀) →
      objGet p₀ "timestamp" = some (.str TS₀) →
      p₀ ≠ Json.null →
      linkageE C (some p₀ :: (mkChainProofs C sk aid (.str H₀) inputs).map some) i =
        .ok ([], chainTimeWarns C TS₀ inputs i) := by
  intro inputs
  induction inputs with
  | nil =>
    intro i p₀ H₀ TS₀ _ _ _
    rfl
  | cons inp rest ih =>
    intro i p₀ H₀ TS₀ hh ht hnn
    obtain ⟨a, d, m, t⟩ := inp
    rw [mkChainProofs]
    simp only [List.map_cons]
    rw [linkageE]
    rw [readFieldE_some (mkProofJ_ne_null C sk a aid d (.str H₀) m (C.toISO t)) "previousHash",
      objGet_mkProofJ_previousHash]
    rw [readFieldE_some hnn "hash", hh]
    rw [readFieldE_some hnn "timestamp", ht]
    rw [readFieldE_some (mkProofJ_ne_null C sk a aid d (.str H₀) m (C.toISO t)) "timestamp",
      objGet_mkProofJ_timestamp]
    simp only [bind, Except.bind, jsStrictEq_str_self, if_true]
    rw [ih (i + 1) (mkProofJ C sk a d aid (.str H₀) m (C.toISO t)) _ (C.toISO t)
      (objGet_mkProofJ_hash C sk a aid d (.str H₀) m (C.toISO t))
      (objGet_mkProofJ_timestamp C sk a aid d (.str H₀) m (C.toISO t))
      (mkProofJ_ne_null C sk a aid d (.str H₀) m (C.toISO t))]
    rw [chainTimeWarns]
    simp only [timeOf, Option.some_bind]
    rw [tsLtB, temporal_match_eq]
    simp

theorem mkChainProofs_mem (C : CryptoModel) (sk aid : String) :
    ∀ (inputs : List (String × Json × Json × Int)) (prev : Json) (p : Json),
      p ∈ mkChainProofs C sk aid prev inputs →
      objGet p "agentId" = some (.str aid) ∧ p ≠ Json.null := by
  intro inputs
  induction inputs with
  | nil => intro prev p hp; cases hp
  | cons inp rest ih =>
    intro prev p hp
    obtain ⟨a, d, m, t⟩ := inp
    rw [mkChainProofs] at hp
    rcases List.mem_cons.mp hp with rfl | hp
    · exact ⟨objGet_mkProofJ_agentId C sk a aid d prev m (C.toISO t),
        mkProofJ_ne_null C sk a aid d prev m (C.toISO t)⟩
    · exact ih _ p hp

theorem agentIdsGo_const (aid : String) :
    ∀ (xs : List Json),
      (∀ p ∈ xs, objGet p "agentId" = some (.str aid) ∧ p ≠ Json.null) →
      agentIdsGo xs = .ok (List.replicate xs.length (some (.str aid))) := by
  intro xs
  induction xs with
  | nil => intro _; rfl
  | cons p rest ih =>
    intro h
    have hp := h p (List.mem_cons_self _ _)
    rw [agentIdsGo, readFieldE_some hp.2, hp.1]
    simp only [bind, Except.bind]
    rw [ih (fun q hq => h q (List.mem_cons_of_mem _ hq))]
    simp [List.replicate_succ]

theorem countDistinct_skip (x : Option Json) :
    ∀ (l : List (Option Json)) (seen : List (Option Json)),
      (∀ y ∈ l, y = x) → seen.any (fun y => jsStrictEq x y) = true →
      countDistinct l seen = 0 := by
  intro l
  induction l with
  | nil => intro seen _ _; rfl
  | cons z rest ih =>
    intro seen h hs
    have hz : z = x := h z (List.mem_cons_self _ _)
    subst hz
    rw [countDistinct, if_pos hs]
    exact ih seen (fun y hy => h y (List.mem_cons_of_mem _ hy)) hs

theorem countDistinct_replicate_str (aid : String) (n : Nat) :
    countDistinct (List.replicate n (some (.str aid))) [] ≤ 1 := by
  cases n with
  | zero => simp [countDistinct]
  | succ k =>
    rw [List.replicate_succ, countDistinct]
    simp only [List.any_nil, Bool.false_eq_true, if_false]
    rw [countDistinct_skip (some (.str aid)) _ _
      (fun y hy => List.eq_of_mem_replicate hy)
      (by simp [List.any_cons, jsStrictEq_str_self])]

/-- The full result of `verifyChain` on a non-empty chain built by
sequential `add` calls from an empty chain: valid, no errors, and exactly
the future-timestamp and temporal warnings. -/
theorem verifyChainE_built (C : CryptoModel) (nowMs : Int) (sk pub a : String)
    (d m : Json) (t : Int) (rest : List (String × Json × Json × Int))
    (hsig : ∀ c, C.checkSig c (C.signFn c sk) pub = true) :
    verifyChainE C nowMs
      (some (.arr (mkChainProofs C sk (deriveAgentId C pub) .null ((a, d, m, t) :: rest)))) pub =
      .ok { valid := true, errors := [],
            warnings := chainFutureWarns C nowMs ((a, d, m, t) :: rest) 0 ++
              chainTimeWarns C (C.toISO t) rest 1 } := by
  set aid := deriveAgentId C pub with haid
  set P₀ := mkProofJ C sk a d aid .null m (C.toISO t) with hP₀
  set TAIL := mkChainProofs C sk aid
    (.str (hashProofData C (createProofDataJ a d aid .null m (C.toISO t)))) rest with hTAIL
  have hchain : mkChainProofs C sk aid .null ((a, d, m, t) :: rest) = P₀ :: TAIL := by
    rw [mkChainProofs]
  have hlen : (P₀ :: TAIL).length = rest.length + 1 := by
    rw [List.length_cons, hTAIL, mkChainProofs_length]
  have hlenE : lenOfE (some (.arr (P₀ :: TAIL))) = .ok (some (rest.length + 1)) := by
    simp [lenOfE, hlen]
  have hper := perProofE_mkChain C nowMs sk pub hsig ((a, d, m, t) :: rest) .null 0
  rw [← haid, hchain] at hper
  simp only [List.map_cons] at hper
  have helems : elemsOf (some (.arr (P₀ :: TAIL))) = (P₀ :: TAIL).map some := rfl
  have helem0 : elemAt (some (.arr (P₀ :: TAIL))) 0 = some P₀ := rfl
  have hread : readFieldE (some P₀) "previousHash" = .ok (some Json.null) := by
    rw [hP₀]
    rw [readFieldE_some (mkProofJ_ne_null C sk a aid d Json.null m (C.toISO t)) "previousHash",
      objGet_mkProofJ_previousHash]
  have hw0 : jsStrictEq (some Json.null) (some Json.null) = true := rfl
  have hlink : linkageE C (some P₀ :: TAIL.map some) 1 =
      .ok ([], chainTimeWarns C (C.toISO t) rest 1) := by
    rw [hP₀, hTAIL]
    exact linkageE_cons_mkChain C nowMs sk aid rest 1 _ _ (C.toISO t)
      (objGet_mkProofJ_hash C sk a aid d Json.null m (C.toISO t))
      (objGet_mkProofJ_timestamp C sk a aid d Json.null m (C.toISO t))
      (mkProofJ_ne_null C sk a aid d Json.null m (C.toISO t))
  have hagents : agentIdsE (some (.arr (P₀ :: TAIL))) =
      .ok (List.replicate (rest.length + 1) (some (.str aid))) := by
    rw [agentIdsE, ← hlen]
    apply agentIdsGo_const
    intro p hp
    rcases List.mem_cons.mp hp with rfl | hp
    · rw [hP₀]
      exact ⟨objGet_mkProofJ_agentId C sk a aid d Json.null m (C.toISO t),
        mkProofJ_ne_null C sk a aid d Json.null m (C.toISO t)⟩
    · rw [hTAIL] at hp
      exact mkChainProofs_mem C sk aid rest _ p hp
  have hcount : (countDistinct (List.replicate (rest.length + 1)
      (some (.str aid))) [] > 1) = False := by
    have := countDistinct_replicate_str aid (rest.length + 1)
    simp only [eq_iff_iff, iff_false]
    omega
  rw [verifyChainE, hchain]
  simp only [hlenE, bind, Except.bind, Option.some.injEq, Nat.succ_ne_zero, if_false,
    reduceCtorEq, helems, List.map_cons, hper, helem0, hread, hw0, if_true, hlink,
    hagents, hcount, List.append_nil, List.nil_append]
  simp

/-! ## Helper facts about the concrete instantiation `Cdef` -/

theorem strAppend_assoc (a b c : String) : (a ++ b) ++ c = a ++ (b ++ c) :=
  string_data_inj (by simp [String.data_append])

theorem strAppend_cancel_beq (a b c : String) : (a ++ b == a ++ c) = (b == c) := by
  by_cases h : b = c
  · subst h
    simp
  · have hne : a ++ b ≠ a ++ c := fun he =>
      h (string_data_inj (List.append_cancel_left
        (show a.data ++ b.data = a.data ++ c.data by
          simpa [String.data_append] using congrArg String.data he)))
    rw [beq_false_of_ne hne, beq_false_of_ne h]

theorem Cdef_privValid (sk : String) : Cdef.privValid sk = true := rfl

theorem Cdef_sig (pub : String) :
    ∀ c, Cdef.checkSig c (Cdef.signFn c ("sk-" ++ pub)) pub = true := by
  intro c
  show (("sk-" ++ pub) ++ ":" ++ c == "sk-" ++ pub ++ ":" ++ c) = true
  exact beq_self_eq_true _

theorem Cdef_sig_iff (pub : String) :
    ∀ c c', Cdef.checkSig c' (Cdef.signFn c ("sk-" ++ pub)) pub = (c == c') := by
  intro c c'
  show (("sk-" ++ pub) ++ ":" ++ c == "sk-" ++ pub ++ ":" ++ c') = (c == c')
  have h1 : ("sk-" ++ pub) ++ ":" ++ c = ("sk-" ++ pub ++ ":") ++ c := by
    rw [strAppend_assoc]
  have h2 : "sk-" ++ pub ++ ":" ++ c' = ("sk-" ++ pub ++ ":") ++ c' := rfl
  rw [h1, h2, strAppend_cancel_beq]

theorem Cdef_hash_inj : Function.Injective Cdef.hashFn := fun _ _ h => h

/-! ## The claims -/

/-- C10: for the empty proof sequence, `verifyChain` returns `valid: true`
with an empty errors list and exactly one warning, `'Empty chain'`. -/
theorem empty_chain_valid_with_warning (C : CryptoModel) (nowMs : Int) (pub : String) :
    verifyChainE C nowMs (some (.arr [])) pub =
      .ok { valid := true, errors := [], warnings := ["Empty chain"] } := rfl

/-- C3: for every proof returned by `createProof`, recomputing the hash over
the proof's own fields excluding `hash` and `signature` — exactly the seven
fields `version, action, data, agentId, previousHash, timestamp, metadata`
reassembled by `proofDataOf` — equals the stored `hash` field. -/
theorem hash_recomputation_roundtrip (C : CryptoModel) (sk a aid : String)
    (d prev m : Json) (ts : String) (hv : C.privValid sk = true) :
    ∀ p, createProofE C a d aid prev m ts (some sk) = .ok p →
      verifyHashB C p = true ∧
      objGet p "hash" = some (.str (hashProofData C (proofDataOf p))) ∧
      proofDataOf p = createProofDataJ a d aid prev m ts := by
  intro p hp
  rw [createProofE_ok C sk a aid d prev m ts hv] at hp
  injection hp with hp
  subst hp
  refine ⟨?_, ?_, proofDataOf_mkProofJ C sk a aid d prev m ts⟩
  · simp [verifyHashB, objGet_mkProofJ_hash, proofDataOf_mkProofJ]
  · rw [objGet_mkProofJ_hash, proofDataOf_mkProofJ]

/-- C3 witness. -/
theorem hash_recomputation_roundtrip_witness :
    Cdef.privValid "sk-PK" = true ∧
    (∀ p, createProofE Cdef "decision" (Json.obj [("x", .num 1)]) "agent-1"
        .null (Json.obj []) "0" (some "sk-PK") = .ok p →
      verifyHashB Cdef p = true ∧
      objGet p "hash" = some (.str (hashProofData Cdef (proofDataOf p))) ∧
      proofDataOf p = createProofDataJ "decision" (Json.obj [("x", .num 1)]) "agent-1"
        .null (Json.obj []) "0") :=
  ⟨rfl, hash_recomputation_roundtrip Cdef "sk-PK" "decision" "agent-1"
    (Json.obj [("x", .num 1)]) .null (Json.obj []) "0" rfl⟩

/-- C1: a chain of N ≥ 3 proofs built by sequential `ProofChain.add` calls
(each using the chain's current last hash as `previousHash`, starting from
an empty chain) verifies with `valid: true` and an empty errors list under
the owning keypair's public key.  The hypotheses state that the keypair is
usable (`privValid`) and that signature verification accepts this key
pair's signatures. -/
theorem chain_of_n_proofs_verifies_valid (C : CryptoModel) (nowMs : Int)
    (kp : Keypair) (created sk : String)
    (inputs : List (String × Json × Json × Int))
    (hk : kp.privateKey = some sk) (hv : C.privValid sk = true)
    (hsig : ∀ c, C.checkSig c (C.signFn c sk) kp.publicKey = true)
    (hn : 3 ≤ inputs.length) :
    ∃ ch r, buildChain C kp created inputs = .ok ch ∧
      verifyChainE C nowMs (some (.arr ch.proofs)) kp.publicKey = .ok r ∧
      r.valid = true ∧ r.errors = [] := by
  cases inputs with
  | nil => simp at hn
  | cons inp rest =>
    obtain ⟨a, d, m, t⟩ := inp
    exact ⟨_, _, buildChain_eq C kp created _ sk hk hv,
      verifyChainE_built C nowMs sk kp.publicKey a d m t rest hsig, rfl, rfl⟩

/-- C1 witness: a concrete 3-proof chain under the executable model. -/
theorem chain_of_n_proofs_verifies_valid_witness :
    (Keypair.mk "PK" (some "sk-PK")).privateKey = some "sk-PK" ∧
    Cdef.privValid "sk-PK" = true ∧
    (∀ c, Cdef.checkSig c (Cdef.signFn c "sk-PK") "PK" = true) ∧
    3 ≤ ([("decision", Json.obj [("x", .num 1)], Json.obj [], (1000 : Int)),
          ("tool_call", Json.obj [("y", .str "z")], Json.obj [], 2000),
          ("decision", Json.obj [], Json.obj [], 3000)] :
            List (String × Json × Json × Int)).length ∧
    (∃ ch r, buildChain Cdef (Keypair.mk "PK" (some "sk-PK")) "c"
        [("decision", Json.obj [("x", .num 1)], Json.obj [], 1000),
         ("tool_call", Json.obj [("y", .str "z")], Json.obj [], 2000),
         ("decision", Json.obj [], Json.obj [], 3000)] = .ok ch ∧
      verifyChainE Cdef 5000 (some (.arr ch.proofs)) "PK" = .ok r ∧
      r.valid = true ∧ r.errors = []) :=
  ⟨rfl, rfl, Cdef_sig "PK", by decide,
    chain_of_n_proofs_verifies_valid Cdef 5000 (Keypair.mk "PK" (some "sk-PK")) "c" "sk-PK"
      _ rfl rfl (Cdef_sig "PK") (by decide)⟩

/-- C8 counterexample: appending through a chain reconstructed by
`ProofChain.fromExport` (whose `privateKey` is `null`) does not fail with
any distinct signing-unavailable error: it throws the generic `TypeError`
that `Buffer.from(null, 'base64')` raises for a null first argument,
before any signing-specific code runs. -/
theorem fromExport_add_throws_generic_typeerror :
    chainAdd Cdef (chainFromExport Cdef
      { metadata := { created := "c", agentId := "agent-x", publicKey := "PK" },
        proofs := [] })
      "decision" (Json.obj []) (Json.obj []) 0 =
      .error (.typeError bufferFromNullMsg) ∧
    bufferFromNullMsg =
      "The first argument must be of type string or an instance of Buffer, ArrayBuffer, or Array or an Array-like Object. Received null" :=
  ⟨rfl, rfl⟩

/-- C8 amended: appending to any chain whose identity has no private key
fails by throwing the generic `TypeError` from decoding the null key — a
failure, but not a distinct signing-unavailable error. -/
theorem add_without_private_key_generic_error (C : CryptoModel) (ch : Chain)
    (h : ch.keypair.privateKey = none) (a : String) (d m : Json) (t : Int) :
    chainAdd C ch a d m t = .error (.typeError bufferFromNullMsg) := by
  simp [chainAdd, createProofE, signProofDataE, h, bind, Except.bind]

/-- C8 amended witness. -/
theorem add_without_private_key_generic_error_witness :
    (chainFromExport Cdef
      { metadata := { created := "c", agentId := "agent-x", publicKey := "PK" },
        proofs := [] }).keypair.privateKey = none ∧
    chainAdd Cdef (chainFromExport Cdef
      { metadata := { created := "c", agentId := "agent-x", publicKey := "PK" },
        proofs := [] }) "decision" (Json.obj []) (Json.obj []) 0 =
      .error (.typeError bufferFromNullMsg) :=
  ⟨rfl, add_without_private_key_generic_error Cdef _ rfl "decision" _ _ 0⟩

/-- C9 counterexample: `saveKeypair` writes over a pre-existing identity
file without reporting anything — the old content is silently replaced
(the function has no error channel at all). -/
theorem saveKeypair_silently_overwrites :
    saveKeypair (Keypair.mk "PK" (some "SK")) "id.json" [("id.json", "OLD")] =
      [("id.json", kpFileContent (Keypair.mk "PK" (some "SK")))] ∧
    fsRead (saveKeypair (Keypair.mk "PK" (some "SK")) "id.json" [("id.json", "OLD")])
      "id.json" ≠ some "OLD" := by
  refine ⟨rfl, ?_⟩
  decide

/-- C9 amended: the `init` command refuses to overwrite an existing
identity file — it reports a user-visible error and leaves the file system
unchanged — but the library function `saveKeypair` itself overwrites
unconditionally and silently. -/
theorem init_refuses_existing_saveKeypair_overwrites (kp : Keypair) (path : String)
    (fs : FileSys) (h : fsExists fs path = true) :
    cmdInit kp path fs = (fs, some ("Error: Keypair already exists at " ++ path)) ∧
    fsRead (saveKeypair kp path fs) path = some (kpFileContent kp) := by
  constructor
  · simp [cmdInit, h]
  · simp [saveKeypair, fsWrite, fsRead, List.lookup]

/-- C9 amended witness. -/
theorem init_refuses_existing_saveKeypair_overwrites_witness :
    fsExists [("id.json", "OLD")] "id.json" = true ∧
    (cmdInit (Keypair.mk "PK" (some "SK")) "id.json" [("id.json", "OLD")] =
      ([("id.json", "OLD")], some ("Error: Keypair already exists at " ++ "id.json")) ∧
    fsRead (saveKeypair (Keypair.mk "PK" (some "SK")) "id.json" [("id.json", "OLD")])
      "id.json" = some (kpFileContent (Keypair.mk "PK" (some "SK")))) :=
  ⟨by decide, init_refuses_existing_saveKeypair_overwrites (Keypair.mk "PK" (some "SK"))
    "id.json" [("id.json", "OLD")] (by decide)⟩

/-- C4 counterexample: `verifyExportedChain` throws on a malformed exported
chain whose metadata has a public key but which lacks the `proofs` array —
`proofs.length` is a property read on `undefined`. -/
theorem verifyExportedChain_throws_on_missing_proofs :
    verifyExportedChainE Cdef 0
      (some (Json.obj [("metadata", Json.obj [("publicKey", Json.str "PK")])])) =
      .error (.typeError (readOnNilMsg "undefined" "length")) ∧
    verifyChainE Cdef 0 (some (.arr [Json.null])) "PK" =
      .error (.typeError (readOnNilMsg "null" "version")) := ⟨rfl, rfl⟩

/-- C6 counterexample: the spec's "scenario 3" payloads `{a:{b:{c:1}}}` and
`{a:{c:1,b:{}}}` are not key-order variants of each other — the second has
a field `a.c = 1` and an empty object at `a.b` — and they produce different
canonical bytes and different hashes, so building two proofs from them does
not yield identical hashes. -/
theorem scenario3_payloads_differ :
    canonicalJson (Json.obj [("a", Json.obj [("b", Json.obj [("c", Json.num 1)])])]) ≠
      canonicalJson (Json.obj [("a", Json.obj [("c", Json.num 1), ("b", Json.obj [])])]) ∧
    hashProofData Cdef
        (createProofDataJ "decision"
          (Json.obj [("a", Json.obj [("b", Json.obj [("c", Json.num 1)])])])
          "agent-1" .null (Json.obj []) "0") ≠
      hashProofData Cdef
        (createProofDataJ "decision"
          (Json.obj [("a", Json.obj [("c", Json.num 1), ("b", Json.obj [])])])
          "agent-1" .null (Json.obj []) "0") := by
  constructor
  · decide
  · decide

set_option maxRecDepth 4000 in
/-- C7 counterexample: a backward step of 30 seconds — well inside the
claimed "about one minute" tolerance — already triggers the
earlier-timestamp warning, because the code's tolerance is 1000 ms. -/
theorem temporal_warning_within_one_minute :
    (70000 : Int) < 100000 - 1000 ∧ (100000 : Int) - 70000 < 60000 ∧
    verifyChainE Cdef 100000
      (some (.arr (mkChainProofs Cdef "sk-PK" (deriveAgentId Cdef "PK") .null
        [("decision", Json.obj [], Json.obj [], 100000),
         ("decision", Json.obj [], Json.obj [], 70000)]))) "PK" =
      .ok { valid := true, errors := [],
            warnings := [earlierTimestampMsg 1] } := by
  refine ⟨by decide, by decide, ?_⟩
  rfl

/-- C7 amended: the temporal check of the chain-linkage loop tolerates a
backward step of at most 1000 ms (one second, per the source comment), not
one minute; a larger decrease between consecutive timestamps yields the
earlier-timestamp warning only — `valid` stays `true` and `errors` stays
empty in either case. -/
theorem temporal_tolerance_one_second (C : CryptoModel) (nowMs : Int)
    (sk pub a₀ a₁ : String) (d₀ m₀ d₁ m₁ : Json) (t₀ t₁ : Int)
    (hsig : ∀ c, C.checkSig c (C.signFn c sk) pub = true)
    (hrt₀ : C.getTime (.str (C.toISO t₀)) = some t₀)
    (hrt₁ : C.getTime (.str (C.toISO t₁)) = some t₁) :
    verifyChainE C nowMs
      (some (.arr (mkChainProofs C sk (deriveAgentId C pub) .null
        [(a₀, d₀, m₀, t₀), (a₁, d₁, m₁, t₁)]))) pub =
      .ok { valid := true, errors := [],
            warnings := chainFutureWarns C nowMs [(a₀, d₀, m₀, t₀), (a₁, d₁, m₁, t₁)] 0 ++
              (if t₁ < t₀ - 1000 then [earlierTimestampMsg 1] else []) } := by
  rw [verifyChainE_built C nowMs sk pub a₀ d₀ m₀ t₀ [(a₁, d₁, m₁, t₁)] hsig]
  simp [chainTimeWarns, tsLtB, hrt₀, hrt₁]

/-- C7 amended witness: at a 30-second backward step the warning fires. -/
theorem temporal_tolerance_one_second_witness :
    (∀ c, Cdef.checkSig c (Cdef.signFn c "sk-PK") "PK" = true) ∧
    Cdef.getTime (.str (Cdef.toISO 100000)) = some 100000 ∧
    Cdef.getTime (.str (Cdef.toISO 70000)) = some 70000 ∧
    verifyChainE Cdef 100000
      (some (.arr (mkChainProofs Cdef "sk-PK" (deriveAgentId Cdef "PK") .null
        [("a", Json.obj [], Json.obj [], 100000),
         ("b", Json.obj [], Json.obj [], 70000)]))) "PK" =
      .ok { valid := true, errors := [],
            warnings := chainFutureWarns Cdef 100000
                [("a", Json.obj [], Json.obj [], 100000),
                 ("b", Json.obj [], Json.obj [], 70000)] 0 ++
              (if (70000 : Int) < 100000 - 1000 then [earlierTimestampMsg 1] else []) } :=
  ⟨Cdef_sig "PK", by decide, by decide,
    temporal_tolerance_one_second Cdef 100000 "sk-PK" "PK" "a" "b"
      (Json.obj []) (Json.obj []) (Json.obj []) (Json.obj []) 100000 70000
      (Cdef_sig "PK") (by decide) (by decide)⟩

/-! ## Totality of the verification functions on well-formed input -/

theorem verifyProofE_total (C : CryptoModel) (nowMs : Int) (pub : String)
    (p : Json) (hp : p ≠ Json.null) :
    ∃ r, verifyProofE C nowMs (some p) pub = .ok r := by
  rw [verifyProofE, readFieldE_some hp]
  simp only [bind, Except.bind]
  split
  · exact ⟨_, rfl⟩
  · exact ⟨_, rfl⟩

theorem perProofE_total (C : CryptoModel) (nowMs : Int) (pub : String) :
    ∀ (xs : List Json), (∀ p ∈ xs, p ≠ Json.null) → ∀ i,
      ∃ v, perProofE C nowMs pub (xs.map some) i = .ok v := by
  intro xs
  induction xs with
  | nil => exact fun _ _ => ⟨([], []), rfl⟩
  | cons x rest ih =>
      intro h i
      obtain ⟨r, hr⟩ := verifyProofE_total C nowMs pub x (h x (by simp))
      obtain ⟨v, hv⟩ := ih (fun p hp => h p (by simp [hp])) (i + 1)
      simp only [List.map_cons, perProofE, hr, bind, Except.bind, hv]
      exact ⟨_, rfl⟩

theorem linkageE_total (C : CryptoModel) :
    ∀ (xs : List Json), (∀ p ∈ xs, p ≠ Json.null) → ∀ i,
      ∃ v, linkageE C (xs.map some) i = .ok v := by
  intro xs
  induction xs with
  | nil => exact fun _ _ => ⟨([], []), rfl⟩
  | cons x rest ih =>
      intro h i
      cases rest with
      | nil => exact ⟨([], []), rfl⟩
      | cons y rest2 =>
          obtain ⟨v, hv⟩ := ih (fun p hp => h p (by simp [hp])) (i + 1)
          simp only [List.map_cons] at hv
          simp only [List.map_cons, linkageE, readFieldE_some (h y (by simp)),
            readFieldE_some (h x (by simp)), bind, Except.bind, hv]
          exact ⟨_, rfl⟩

theorem agentIdsGo_total :
    ∀ (xs : List Json), (∀ p ∈ xs, p ≠ Json.null) →
      ∃ v, agentIdsGo xs = .ok v := by
  intro xs
  induction xs with
  | nil => exact fun _ => ⟨[], rfl⟩
  | cons x rest ih =>
      intro h
      obtain ⟨v, hv⟩ := ih (fun p hp => h p (by simp [hp]))
      simp only [agentIdsGo, readFieldE_some (h x (by simp)), bind, Except.bind, hv]
      exact ⟨_, rfl⟩

theorem verifyChainE_total (C : CryptoModel) (nowMs : Int) (pub : String)
    (proofs : List Json) (hs : ∀ q ∈ proofs, q ≠ Json.null) :
    ∃ r, verifyChainE C nowMs (some (.arr proofs)) pub = .ok r := by
  cases proofs with
  | nil => exact ⟨_, rfl⟩
  | cons p rest =>
      obtain ⟨pp, hpp⟩ := perProofE_total C nowMs pub (p :: rest) hs 0
      obtain ⟨lk, hlk⟩ := linkageE_total C (p :: rest) hs 1
      obtain ⟨ag, hag⟩ := agentIdsGo_total (p :: rest) hs
      simp only [List.map_cons] at hpp hlk
      have helems : elemsOf (some (.arr (p :: rest))) = some p :: List.map some rest := rfl
      have helem0 : elemAt (some (.arr (p :: rest))) 0 = some p := rfl
      have hagE : agentIdsE (some (.arr (p :: rest))) = agentIdsGo (p :: rest) := rfl
      simp only [verifyChainE, lenOfE, bind, Except.bind, List.length_cons,
        Option.some.injEq, Nat.succ_ne_zero, if_false, helems, helem0, hagE,
        hpp, hlk, hag, readFieldE_some (hs p (by simp))]
      exact ⟨_, rfl⟩

theorem verifyExportedChainE_total (C : CryptoModel) (nowMs : Int)
    (ms : List (String × Json)) (mds : List (String × Json)) (pk : String)
    (proofs : List Json)
    (hmd : List.lookup "metadata" ms = some (Json.obj mds))
    (hpk : List.lookup "publicKey" mds = some (Json.str pk))
    (hpk0 : pk ≠ "")
    (hpr : List.lookup "proofs" ms = some (Json.arr proofs))
    (hs : ∀ q ∈ proofs, q ≠ Json.null) :
    ∃ r, verifyExportedChainE C nowMs (some (Json.obj ms)) = .ok r := by
  obtain ⟨r, hr⟩ := verifyChainE_total C nowMs pk proofs hs
  have hnn : (Json.obj ms) ≠ Json.null := fun h => by cases h
  have hfal : isFalsy (some (Json.str pk)) = false := by
    rw [isFalsy.eq_def]
    split
    all_goals first
      | rfl
      | (rename_i heq
         exact absurd heq (by simp [hpk0]))
  refine ⟨r, ?_⟩
  simp only [verifyExportedChainE, readFieldE_some hnn, bind, Except.bind,
    objGet, hmd, hpk, hfal, Bool.false_eq_true, if_false, optField, hpr, hr]

/-- C4 amended: the verification functions return a structured result
(never throw) on well-formed receivers — any non-null proof object
(however malformed its fields: missing fields, wrong types, bad
signatures), any array of non-null entries for `verifyChain`, and any
exported chain with an object `metadata` carrying a non-empty string
`publicKey` and an array `proofs` of non-null entries.  Outside this set
the functions do throw: `verifyProof(null)`, a `null` chain entry, or an
export without a `proofs` array each raises a `TypeError`. -/
theorem verify_total_on_wellformed_input (C : CryptoModel) (nowMs : Int) (pub : String)
    (p : Json) (hp : p ≠ Json.null)
    (proofs : List Json) (hs : ∀ q ∈ proofs, q ≠ Json.null)
    (ms mds : List (String × Json)) (pk : String) (eproofs : List Json)
    (hmd : List.lookup "metadata" ms = some (Json.obj mds))
    (hpk : List.lookup "publicKey" mds = some (Json.str pk))
    (hpk0 : pk ≠ "")
    (hpr : List.lookup "proofs" ms = some (Json.arr eproofs))
    (hes : ∀ q ∈ eproofs, q ≠ Json.null) :
    (∃ r, verifyProofE C nowMs (some p) pub = .ok r) ∧
    (∃ r, verifyChainE C nowMs (some (.arr proofs)) pub = .ok r) ∧
    (∃ r, verifyExportedChainE C nowMs (some (Json.obj ms)) = .ok r) :=
  ⟨verifyProofE_total C nowMs pub p hp,
   verifyChainE_total C nowMs pub proofs hs,
   verifyExportedChainE_total C nowMs ms mds pk eproofs hmd hpk hpk0 hpr hes⟩

/-- C4 amended witness: grossly malformed but non-null inputs. -/
theorem verify_total_on_wellformed_input_witness :
    ((Json.obj [("x", .num 1)]) ≠ Json.null ∧
     (∀ q ∈ [Json.num 5, Json.obj []], q ≠ Json.null) ∧
     List.lookup "metadata"
       [("metadata", Json.obj [("publicKey", Json.str "PK")]),
        ("proofs", Json.arr [Json.obj []])] =
       some (Json.obj [("publicKey", Json.str "PK")]) ∧
     List.lookup "publicKey" [("publicKey", Json.str "PK")] = some (Json.str "PK") ∧
     "PK" ≠ "" ∧
     List.lookup "proofs"
       [("metadata", Json.obj [("publicKey", Json.str "PK")]),
        ("proofs", Json.arr [Json.obj []])] = some (Json.arr [Json.obj []]) ∧
     (∀ q ∈ [Json.obj []], q ≠ Json.null)) ∧
    ((∃ r, verifyProofE Cdef 0 (some (Json.obj [("x", .num 1)])) "PK" = .ok r) ∧
     (∃ r, verifyChainE Cdef 0 (some (.arr [Json.num 5, Json.obj []])) "PK" = .ok r) ∧
     (∃ r, verifyExportedChainE Cdef 0
        (some (Json.obj [("metadata", Json.obj [("publicKey", Json.str "PK")]),
                         ("proofs", Json.arr [Json.obj []])])) = .ok r)) :=
  ⟨⟨by decide, by decide, by decide, by decide, by decide, by decide, by decide⟩,
    verify_total_on_wellformed_input Cdef 0 "PK" (Json.obj [("x", .num 1)]) (by decide)
      [Json.num 5, Json.obj []] (by decide)
      [("metadata", Json.obj [("publicKey", Json.str "PK")]),
       ("proofs", Json.arr [Json.obj []])]
      [("publicKey", Json.str "PK")] "PK" [Json.obj []]
      (by decide) (by decide) (by decide) (by decide) (by decide)⟩

/-! ## Key-order invariance of canonicalization (values equal up to key
order at every level canonicalize identically) -/

theorem lookup_isSome_of_mem_keys :
    ∀ {l : List (String × Json)} {k : String}, k ∈ keysOf l →
      (l.lookup k).isSome = true := by
  intro l
  induction l with
  | nil => intro k h; cases h
  | cons a rest ih =>
      intro k h
      obtain ⟨a1, a2⟩ := a
      rw [keysOf_cons] at h
      by_cases hk : k = a1
      · subst hk
        simp [List.lookup]
      · simp only [List.lookup, beq_false_of_ne hk]
        exact ih ((List.mem_cons.mp h).resolve_left hk)

theorem keyPermPairsB_subkeys :
    ∀ {ms ns : List (String × Json)}, keyPermPairsB ms ns = true →
      ∀ k ∈ keysOf ms, k ∈ keysOf ns := by
  intro ms
  induction ms with
  | nil => intro ns _ k hk; cases hk
  | cons e rest ih =>
      intro ns h k hk
      obtain ⟨k0, v0⟩ := e
      simp only [keyPermPairsB, Bool.and_eq_true] at h
      rw [keysOf_cons] at hk
      rcases List.mem_cons.mp hk with h1 | h1
      · subst h1
        cases hlk : List.lookup k ns with
        | none => simp [hlk] at h
        | some w => exact lookup_mem_keys hlk
      · exact ih h.2 k h1

mutual

theorem keyPermB_sortKeys : ∀ (x y : Json), nodupB x = true → nodupB y = true →
    keyPermB x y = true → sortKeys x = sortKeys y
  | .null, .null, _, _, _ => rfl
  | .bool a, .bool b, _, _, h => by
      simp only [keyPermB, beq_iff_eq] at h
      rw [h]
  | .num a, .num b, _, _, h => by
      simp only [keyPermB, beq_iff_eq] at h
      rw [h]
  | .str a, .str b, _, _, h => by
      simp only [keyPermB, beq_iff_eq] at h
      rw [h]
  | .arr xs, .arr ys, hn1, hn2, h => by
      have := keyPermListB_sortKeys xs ys (by simpa [nodupB] using hn1)
        (by simpa [nodupB] using hn2) (by simpa [keyPermB] using h)
      simp [sortKeys, this]
  | .obj ms, .obj ns, hn1, hn2, h => by
      have h' := h
      simp only [keyPermB, Bool.and_eq_true, beq_iff_eq] at h'
      obtain ⟨hlen, hperm⟩ := h'
      have hk1 : (keysOf ms).Nodup := nodupB_obj_keys hn1
      have hk2 : (keysOf ns).Nodup := nodupB_obj_keys hn2
      have hp1 : nodupPairsB ms = true := nodupB_obj_pairs hn1
      have hp2 : nodupPairsB ns = true := nodupB_obj_pairs hn2
      have hsub : ∀ k ∈ keysOf ms, k ∈ keysOf ns := keyPermPairsB_subkeys hperm
      have hkp : List.Perm (keysOf ms) (keysOf ns) := by
        refine (List.subperm_of_subset hk1 hsub).perm_of_length_le ?_
        simp [keysOf, hlen]
      have hS : insertionSortPairs (sortKeysPairs ms) =
          insertionSortPairs (sortKeysPairs ns) := by
        apply sorted_key_ext (insertionSortPairs_sorted _) (insertionSortPairs_sorted _)
        · refine (keysOf_perm (insertionSortPairs_perm _)).nodup_iff.mpr ?_
          rw [keysOf_sortKeysPairs]
          exact hk1
        · refine (keysOf_perm (insertionSortPairs_perm _)).nodup_iff.mpr ?_
          rw [keysOf_sortKeysPairs]
          exact hk2
        · have e1 := keysOf_perm (insertionSortPairs_perm (sortKeysPairs ms))
          have e2 := keysOf_perm (insertionSortPairs_perm (sortKeysPairs ns))
          rw [keysOf_sortKeysPairs] at e1 e2
          exact e1.trans (hkp.trans e2.symm)
        · intro k
          rw [lookup_sorted k ms hk1, lookup_sorted k ns hk2]
          cases hml : List.lookup k ms with
          | none =>
              have hnone : List.lookup k ns = none := by
                apply lookup_eq_none_keys
                intro hm
                have hm' : k ∈ keysOf ms := hkp.mem_iff.mpr hm
                have := lookup_isSome_of_mem_keys hm'
                rw [hml] at this
                cases this
              rw [hnone]
          | some v =>
              obtain ⟨w, hw, hvw⟩ := keyPermPairsB_vals ms ns hp1 hp2 hperm k v hml
              rw [hw]
              simp [hvw]
      simp [sortKeys, hS]
  | .null, .bool _, _, _, h => by simp [keyPermB] at h
  | .null, .num _, _, _, h => by simp [keyPermB] at h
  | .null, .str _, _, _, h => by simp [keyPermB] at h
  | .null, .arr _, _, _, h => by simp [keyPermB] at h
  | .null, .obj _, _, _, h => by simp [keyPermB] at h
  | .bool _, .null, _, _, h => by simp [keyPermB] at h
  | .bool _, .num _, _, _, h => by simp [keyPermB] at h
  | .bool _, .str _, _, _, h => by simp [keyPermB] at h
  | .bool _, .arr _, _, _, h => by simp [keyPermB] at h
  | .bool _, .obj _, _, _, h => by simp [keyPermB] at h
  | .num _, .null, _, _, h => by simp [keyPermB] at h
  | .num _, .bool _, _, _, h => by simp [keyPermB] at h
  | .num _, .str _, _, _, h => by simp [keyPermB] at h
  | .num _, .arr _, _, _, h => by simp [keyPermB] at h
  | .num _, .obj _, _, _, h => by simp [keyPermB] at h
  | .str _, .null, _, _, h => by simp [keyPermB] at h
  | .str _, .bool _, _, _, h => by simp [keyPermB] at h
  | .str _, .num _, _, _, h => by simp [keyPermB] at h
  | .str _, .arr _, _, _, h => by simp [keyPermB] at h
  | .str _, .obj _, _, _, h => by simp [keyPermB] at h
  | .arr _, .null, _, _, h => by simp [keyPermB] at h
  | .arr _, .bool _, _, _, h => by simp [keyPermB] at h
  | .arr _, .num _, _, _, h => by simp [keyPermB] at h
  | .arr _, .str _, _, _, h => by simp [keyPermB] at h
  | .arr _, .obj _, _, _, h => by simp [keyPermB] at h
  | .obj _, .null, _, _, h => by simp [keyPermB] at h
  | .obj _, .bool _, _, _, h => by simp [keyPermB] at h
  | .obj _, .num _, _, _, h => by simp [keyPermB] at h
  | .obj _, .str _, _, _, h => by simp [keyPermB] at h
  | .obj _, .arr _, _, _, h => by simp [keyPermB] at h

theorem keyPermListB_sortKeys : ∀ (xs ys : List Json), nodupElemsB xs = true →
    nodupElemsB ys = true → keyPermListB xs ys = true →
    sortKeysList xs = sortKeysList ys
  | [], [], _, _, _ => rfl
  | x :: xs, y :: ys, hn1, hn2, h => by
      simp only [nodupElemsB, Bool.and_eq_true] at hn1 hn2
      simp only [keyPermListB, Bool.and_eq_true] at h
      have h1 := keyPermB_sortKeys x y hn1.1 hn2.1 h.1
      have h2 := keyPermListB_sortKeys xs ys hn1.2 hn2.2 h.2
      simp [sortKeysList, h1, h2]
  | [], _ :: _, _, _, h => by simp [keyPermListB] at h
  | _ :: _, [], _, _, h => by simp [keyPermListB] at h

theorem keyPermPairsB_vals : ∀ (ms ns : List (String × Json)),
    nodupPairsB ms = true → nodupPairsB ns = true → keyPermPairsB ms ns = true →
    ∀ k v, ms.lookup k = some v → ∃ w, ns.lookup k = some w ∧ sortKeys v = sortKeys w
  | [], _, _, _, _ => fun k v hl => by simp [List.lookup] at hl
  | (k0, v0) :: rest, ns, hn1, hn2, h => fun k v hl => by
      simp only [keyPermPairsB, Bool.and_eq_true] at h
      obtain ⟨h1, h2⟩ := h
      simp only [nodupPairsB, Bool.and_eq_true] at hn1
      by_cases hk : k = k0
      · subst hk
        simp only [List.lookup, beq_self_eq_true] at hl
        have hv : v0 = v := by simpa using hl
        subst hv
        cases hlk : List.lookup k ns with
        | none => simp [hlk] at h1
        | some w =>
            simp only [hlk] at h1
            exact ⟨w, rfl, keyPermB_sortKeys v0 w hn1.1
              (nodupPairsB_mem hn2 (lookup_mem_pair hlk)) h1⟩
      · simp only [List.lookup, beq_false_of_ne hk] at hl
        exact keyPermPairsB_vals rest ns hn1.2 hn2 h2 k v hl

end

/-- C6 amended: canonicalization is key-order independent — two payloads
that are equal up to key permutation at every nesting level (same key
sets with pointwise key-order-equivalent values, arrays kept in order)
produce identical canonical bytes and identical hashes, and two proofs
built over them carry identical `hash` fields.  (The spec's concrete
payload pair `\x7ba: \x7bb: \x7bc: 1\x7d\x7d\x7d` vs
`\x7ba: \x7bc: 1, b: \x7b\x7d\x7d\x7d` is not such a permutation and does
not hash identically.) -/
theorem key_order_invariance_of_canonicalization (C : CryptoModel)
    (sk a aid ts : String) (prev m : Json) (d₁ d₂ : Json)
    (hn₁ : nodupB d₁ = true) (hn₂ : nodupB d₂ = true)
    (hperm : keyPermB d₁ d₂ = true)
    (hv : C.privValid sk = true) :
    canonicalJson d₁ = canonicalJson d₂ ∧
    hashProofData C (createProofDataJ a d₁ aid prev m ts) =
      hashProofData C (createProofDataJ a d₂ aid prev m ts) ∧
    ∀ p₁ p₂, createProofE C a d₁ aid prev m ts (some sk) = .ok p₁ →
      createProofE C a d₂ aid prev m ts (some sk) = .ok p₂ →
      objGet p₁ "hash" = objGet p₂ "hash" := by
  have hsk : sortKeys d₁ = sortKeys d₂ := keyPermB_sortKeys d₁ d₂ hn₁ hn₂ hperm
  have hc : canonicalJson d₁ = canonicalJson d₂ := by
    rw [canonicalJson, canonicalJson, hsk]
  have hpd : sortKeys (createProofDataJ a d₁ aid prev m ts) =
      sortKeys (createProofDataJ a d₂ aid prev m ts) := by
    rw [sortKeys_createProofDataJ, sortKeys_createProofDataJ, hsk]
  have hh : hashProofData C (createProofDataJ a d₁ aid prev m ts) =
      hashProofData C (createProofDataJ a d₂ aid prev m ts) := by
    rw [hashProofData, hashProofData, canonicalJson, canonicalJson, hpd]
  refine ⟨hc, hh, ?_⟩
  intro p₁ p₂ h₁ h₂
  rw [createProofE_ok C sk a aid d₁ prev m ts hv] at h₁
  rw [createProofE_ok C sk a aid d₂ prev m ts hv] at h₂
  injection h₁ with h₁
  injection h₂ with h₂
  subst h₁
  subst h₂
  rw [objGet_mkProofJ_hash, objGet_mkProofJ_hash, hh]

/-- C6 amended witness: a genuine key-order permutation of a nested
payload. -/
theorem key_order_invariance_of_canonicalization_witness :
    (nodupB (Json.obj [("a", Json.obj [("b", .num 1), ("c", .num 2)])]) = true ∧
     nodupB (Json.obj [("a", Json.obj [("c", .num 2), ("b", .num 1)])]) = true ∧
     keyPermB (Json.obj [("a", Json.obj [("b", .num 1), ("c", .num 2)])])
       (Json.obj [("a", Json.obj [("c", .num 2), ("b", .num 1)])]) = true ∧
     Cdef.privValid "sk-PK" = true) ∧
    (canonicalJson (Json.obj [("a", Json.obj [("b", .num 1), ("c", .num 2)])]) =
       canonicalJson (Json.obj [("a", Json.obj [("c", .num 2), ("b", .num 1)])]) ∧
     hashProofData Cdef (createProofDataJ "decision"
         (Json.obj [("a", Json.obj [("b", .num 1), ("c", .num 2)])])
         "agent-1" .null (Json.obj []) "0") =
       hashProofData Cdef (createProofDataJ "decision"
         (Json.obj [("a", Json.obj [("c", .num 2), ("b", .num 1)])])
         "agent-1" .null (Json.obj []) "0") ∧
     ∀ p₁ p₂, createProofE Cdef "decision"
         (Json.obj [("a", Json.obj [("b", .num 1), ("c", .num 2)])])
         "agent-1" .null (Json.obj []) "0" (some "sk-PK") = .ok p₁ →
       createProofE Cdef "decision"
         (Json.obj [("a", Json.obj [("c", .num 2), ("b", .num 1)])])
         "agent-1" .null (Json.obj []) "0" (some "sk-PK") = .ok p₂ →
       objGet p₁ "hash" = objGet p₂ "hash") :=
  ⟨⟨by decide, by decide, by decide, rfl⟩,
    key_order_invariance_of_canonicalization Cdef "sk-PK" "decision" "agent-1" "0"
      .null (Json.obj [])
      (Json.obj [("a", Json.obj [("b", .num 1), ("c", .num 2)])])
      (Json.obj [("a", Json.obj [("c", .num 2), ("b", .num 1)])])
      (by decide) (by decide) (by decide) rfl⟩

/-! ## Deep-tamper support -/

theorem canonical_data_ne (a aid : String) (d d' prev m : Json) (ts : String)
    (hne : serC (sortKeys d') ≠ serC (sortKeys d)) :
    canonicalJson (createProofDataJ a d' aid prev m ts) ≠
      canonicalJson (createProofDataJ a d aid prev m ts) := by
  apply canonicalJson_ne
  intro hcontra
  rw [sortKeys_createProofDataJ, sortKeys_createProofDataJ] at hcontra
  exact hne (serObj_inner_cancel [("action", .str a), ("agentId", .str aid)]
    "data" (sortKeys d') (sortKeys d)
    [("metadata", sortKeys m), ("previousHash", sortKeys prev),
     ("timestamp", .str ts), ("version", .str PROOF_VERSION)] hcontra)

theorem setField_data_mkProofJ (C : CryptoModel) (sk a aid : String)
    (d D prev m : Json) (ts : String) :
    setField (mkProofJ C sk a d aid prev m ts) "data" D =
      .obj [("version", .str PROOF_VERSION), ("action", .str a), ("data", D),
            ("agentId", .str aid), ("previousHash", prev), ("timestamp", .str ts),
            ("metadata", m),
            ("hash", .str (hashProofData C (createProofDataJ a d aid prev m ts))),
            ("signature", .str (C.signFn
              (canonicalJson (createProofDataJ a d aid prev m ts)) sk))] := rfl

theorem proofDataOf_setData (C : CryptoModel) (sk a aid : String)
    (d D prev m : Json) (ts : String) :
    proofDataOf (setField (mkProofJ C sk a d aid prev m ts) "data" D) =
      createProofDataJ a D aid prev m ts := rfl

theorem objGet_setData_hash (C : CryptoModel) (sk a aid : String)
    (d D prev m : Json) (ts : String) :
    objGet (setField (mkProofJ C sk a d aid prev m ts) "data" D) "hash" =
      some (.str (hashProofData C (createProofDataJ a d aid prev m ts))) := rfl

theorem setData_mkProofJ_ne_null (C : CryptoModel) (sk a aid : String)
    (d D prev m : Json) (ts : String) :
    setField (mkProofJ C sk a d aid prev m ts) "data" D ≠ Json.null := by
  rw [setField_data_mkProofJ]
  intro h
  cases h

theorem requiredFields_setData (C : CryptoModel) (sk a aid : String)
    (d D prev m : Json) (ts : String) :
    requiredFields.filter
      (fun f => (objGet (setField (mkProofJ C sk a d aid prev m ts) "data" D) f).isNone) =
      [] := rfl

theorem verifyProofE_invalid_hash (C : CryptoModel) (nowMs : Int) (pub : String)
    (p : Json) (hp : p ≠ Json.null)
    (hreq : requiredFields.filter (fun f => (objGet p f).isNone) = [])
    (hhash : verifyHashB C p = false) :
    ∃ r, verifyProofE C nowMs (some p) pub = .ok r ∧ r.valid = false ∧
      "Hash verification failed - proof data may be tampered" ∈ r.errors := by
  have key : ∀ (l₁ l₃ : List String),
      ((l₁ ++ ["Hash verification failed - proof data may be tampered"]) ++ l₃).isEmpty
        = false ∧
      "Hash verification failed - proof data may be tampered" ∈
        (l₁ ++ ["Hash verification failed - proof data may be tampered"]) ++ l₃ := by
    intro l₁ l₃
    constructor
    · cases l₁ <;> simp
    · simp
  rw [verifyProofE, readFieldE_some hp]
  simp only [bind, Except.bind, hreq, List.map_nil, List.isEmpty_nil, if_true, hhash,
    Bool.false_eq_true, if_false]
  exact ⟨_, rfl, (key _ _).1, (key _ _).2⟩

/-- C2: canonicalization sorts keys at every nesting level, so replacing
the value at any object path of depth ≥ 2 inside a proof's `data` by a
different primitive changes the canonical bytes and hash of the rebuilt
proof data, and `verifyProof` on the mutated proof returns `valid: false`
with the hash-tamper error. -/
theorem deep_mutation_fails_verification (C : CryptoModel) (nowMs : Int)
    (sk pub a ts : String) (data meta prev : Json)
    (ks : List String) (v v' : Json)
    (hinj : Function.Injective C.hashFn)
    (hv : C.privValid sk = true)
    (hnd : nodupB data = true)
    (hlen : 2 ≤ ks.length)
    (hget : getPath data ks = some v)
    (hpv : isPrimB v = true) (hpv' : isPrimB v' = true) (hne : v' ≠ v) :
    ∀ p, createProofE C a data (deriveAgentId C pub) prev meta ts (some sk) = .ok p →
      canonicalJson (proofDataOf (setField p "data" (setPath data ks v'))) ≠
        canonicalJson (proofDataOf p) ∧
      hashProofData C (proofDataOf (setField p "data" (setPath data ks v'))) ≠
        hashProofData C (proofDataOf p) ∧
      ∃ r, verifyProofE C nowMs
          (some (setField p "data" (setPath data ks v'))) pub = .ok r ∧
        r.valid = false ∧
        "Hash verification failed - proof data may be tampered" ∈ r.errors := by
  intro p hp
  rw [createProofE_ok C sk a (deriveAgentId C pub) data prev meta ts hv] at hp
  injection hp with hp
  subst hp
  have hdiff : serC (sortKeys (setPath data ks v')) ≠ serC (sortKeys data) := by
    apply sortKeys_setPath_ne ks data v v' hnd hget
    intro hc
    rw [sortKeys_prim v hpv, sortKeys_prim v' hpv'] at hc
    exact hne (serC_prim_inj v' v hpv' hpv hc)
  have hcan : canonicalJson
      (createProofDataJ a (setPath data ks v') (deriveAgentId C pub) prev meta ts) ≠
      canonicalJson (createProofDataJ a data (deriveAgentId C pub) prev meta ts) :=
    canonical_data_ne a (deriveAgentId C pub) data (setPath data ks v') prev meta ts hdiff
  have hhb : verifyHashB C
      (setField (mkProofJ C sk a data (deriveAgentId C pub) prev meta ts) "data"
        (setPath data ks v')) = false := by
    rw [verifyHashB, objGet_setData_hash, proofDataOf_setData]
    apply beq_false_of_ne
    intro hcontra
    injection hcontra with hcontra
    injection hcontra with hcontra
    simp only [hashProofData] at hcontra
    exact hcan (hinj hcontra).symm
  refine ⟨?_, ?_, ?_⟩
  · rw [proofDataOf_setData, proofDataOf_mkProofJ]
    exact hcan
  · rw [proofDataOf_setData, proofDataOf_mkProofJ]
    intro hcontra2
    simp only [hashProofData] at hcontra2
    exact hcan (hinj hcontra2)
  · exact verifyProofE_invalid_hash C nowMs pub _
      (setData_mkProofJ_ne_null C sk a (deriveAgentId C pub) data (setPath data ks v')
        prev meta ts)
      (requiredFields_setData C sk a (deriveAgentId C pub) data (setPath data ks v')
        prev meta ts)
      hhb

/-- C2 witness: mutate `data.inner.value` (depth 2). -/
theorem deep_mutation_fails_verification_witness :
    (Function.Injective Cdef.hashFn ∧
     Cdef.privValid "sk-PK" = true ∧
     nodupB (Json.obj [("inner", Json.obj [("value", .num 1), ("w", .num 2)]),
                       ("other", .num 3)]) = true ∧
     2 ≤ (["inner", "value"] : List String).length ∧
     getPath (Json.obj [("inner", Json.obj [("value", .num 1), ("w", .num 2)]),
                        ("other", .num 3)]) ["inner", "value"] = some (.num 1) ∧
     isPrimB (Json.num 1) = true ∧ isPrimB (Json.num 42) = true ∧
     (Json.num 42) ≠ (Json.num 1)) ∧
    (∀ p, createProofE Cdef "decision"
        (Json.obj [("inner", Json.obj [("value", .num 1), ("w", .num 2)]),
                   ("other", .num 3)])
        (deriveAgentId Cdef "PK") .null (Json.obj []) "0" (some "sk-PK") = .ok p →
      canonicalJson (proofDataOf (setField p "data"
          (setPath (Json.obj [("inner", Json.obj [("value", .num 1), ("w", .num 2)]),
                              ("other", .num 3)]) ["inner", "value"] (.num 42)))) ≠
        canonicalJson (proofDataOf p) ∧
      hashProofData Cdef (proofDataOf (setField p "data"
          (setPath (Json.obj [("inner", Json.obj [("value", .num 1), ("w", .num 2)]),
                              ("other", .num 3)]) ["inner", "value"] (.num 42)))) ≠
        hashProofData Cdef (proofDataOf p) ∧
      ∃ r, verifyProofE Cdef 0
          (some (setField p "data"
            (setPath (Json.obj [("inner", Json.obj [("value", .num 1), ("w", .num 2)]),
                                ("other", .num 3)]) ["inner", "value"] (.num 42)))) "PK"
          = .ok r ∧
        r.valid = false ∧
        "Hash verification failed - proof data may be tampered" ∈ r.errors) :=
  ⟨⟨Cdef_hash_inj, rfl, by decide, by decide, by decide, by decide, by decide, by decide⟩,
    deep_mutation_fails_verification Cdef 0 "sk-PK" "PK" "decision" "0"
      (Json.obj [("inner", Json.obj [("value", .num 1), ("w", .num 2)]),
                 ("other", .num 3)])
      (Json.obj []) Json.null ["inner", "value"] (.num 1) (.num 42)
      Cdef_hash_inj rfl (by decide) (by decide) (by decide) (by decide) (by decide)
      (by decide)⟩

/-! ## Chain-break localization support -/

theorem list_get_append_length :
    ∀ (A : List Json) (x : Json) (B : List Json),
      (A ++ x :: B).get? A.length = some x := by
  intro A x B
  induction A with
  | nil => rfl
  | cons a rest ih => simpa using ih

theorem list_set_append_length :
    ∀ (A : List Json) (x y : Json) (B : List Json),
      (A ++ x :: B).set A.length y = A ++ y :: B := by
  intro A x y B
  induction A with
  | nil => rfl
  | cons a rest ih => simp [ih]

theorem mkChainProofs_append (C : CryptoModel) (sk aid : String) :
    ∀ (I₁ I₂ : List (String × Json × Json × Int)) (prev : Json),
      mkChainProofs C sk aid prev (I₁ ++ I₂) =
        mkChainProofs C sk aid prev I₁ ++
        mkChainProofs C sk aid (chainNextPrev C aid prev I₁) I₂ := by
  intro I₁
  induction I₁ with
  | nil => intro I₂ prev; rfl
  | cons inp rest ih =>
      intro I₂ prev
      obtain ⟨a, d, m, t⟩ := inp
      rw [List.cons_append, mkChainProofs, mkChainProofs, chainNextPrev, ih]
      simp

theorem setField_prev_mkProofJ (C : CryptoModel) (sk a aid : String)
    (d prev V m : Json) (ts : String) :
    setField (mkProofJ C sk a d aid prev m ts) "previousHash" V =
      .obj [("version", .str PROOF_VERSION), ("action", .str a), ("data", d),
            ("agentId", .str aid), ("previousHash", V), ("timestamp", .str ts),
            ("metadata", m),
            ("hash", .str (hashProofData C (createProofDataJ a d aid prev m ts))),
            ("signature", .str (C.signFn
              (canonicalJson (createProofDataJ a d aid prev m ts)) sk))] := rfl

theorem proofDataOf_setPrev (C : CryptoModel) (sk a aid : String)
    (d prev V m : Json) (ts : String) :
    proofDataOf (setField (mkProofJ C sk a d aid prev m ts) "previousHash" V) =
      createProofDataJ a d aid V m ts := rfl

theorem objGet_setPrev_hash (C : CryptoModel) (sk a aid : String)
    (d prev V m : Json) (ts : String) :
    objGet (setField (mkProofJ C sk a d aid prev m ts) "previousHash" V) "hash" =
      some (.str (hashProofData C (createProofDataJ a d aid prev m ts))) := rfl

theorem objGet_setPrev_signature (C : CryptoModel) (sk a aid : String)
    (d prev V m : Json) (ts : String) :
    objGet (setField (mkProofJ C sk a d aid prev m ts) "previousHash" V) "signature" =
      some (.str (C.signFn
        (canonicalJson (createProofDataJ a d aid prev m ts)) sk)) := rfl

theorem objGet_setPrev_prev (C : CryptoModel) (sk a aid : String)
    (d prev V m : Json) (ts : String) :
    objGet (setField (mkProofJ C sk a d aid prev m ts) "previousHash" V)
      "previousHash" = some V := rfl

theorem objGet_setPrev_timestamp (C : CryptoModel) (sk a aid : String)
    (d prev V m : Json) (ts : String) :
    objGet (setField (mkProofJ C sk a d aid prev m ts) "previousHash" V)
      "timestamp" = some (.str ts) := rfl

theorem objGet_setPrev_agentId (C : CryptoModel) (sk a aid : String)
    (d prev V m : Json) (ts : String) :
    objGet (setField (mkProofJ C sk a d aid prev m ts) "previousHash" V)
      "agentId" = some (.str aid) := rfl

theorem setPrev_ne_null (C : CryptoModel) (sk a aid : String)
    (d prev V m : Json) (ts : String) :
    setField (mkProofJ C sk a d aid prev m ts) "previousHash" V ≠ Json.null := by
  rw [setField_prev_mkProofJ]
  intro h
  cases h

theorem requiredFields_setPrev (C : CryptoModel) (sk a aid : String)
    (d prev V m : Json) (ts : String) :
    requiredFields.filter
      (fun f => (objGet (setField (mkProofJ C sk a d aid prev m ts)
        "previousHash" V) f).isNone) = [] := rfl

theorem canonical_prev_serC_ne (v' : Json) (H : String) (hne : v' ≠ .str H) :
    serC (sortKeys v') ≠ serC (sortKeys (.str H)) := by
  rw [sortKeys_str]
  intro hc
  exact hne (sortKeys_str_inv v' H (serC_str_inv (sortKeys v') H hc))

theorem canonical_prev_ne (a aid : String) (d m V prev : Json) (ts : String)
    (hne : serC (sortKeys V) ≠ serC (sortKeys prev)) :
    canonicalJson (createProofDataJ a d aid V m ts) ≠
      canonicalJson (createProofDataJ a d aid prev m ts) := by
  apply canonicalJson_ne
  intro hcontra
  rw [sortKeys_createProofDataJ, sortKeys_createProofDataJ] at hcontra
  exact hne (serObj_inner_cancel
    [("action", .str a), ("agentId", .str aid), ("data", sortKeys d),
     ("metadata", sortKeys m)]
    "previousHash" (sortKeys V) (sortKeys prev)
    [("timestamp", .str ts), ("version", .str PROOF_VERSION)] hcontra)

theorem verifyProofE_tampered_prev (C : CryptoModel) (nowMs : Int) (sk pub a : String)
    (d m : Json) (ts H : String) (v' : Json)
    (hsig2 : ∀ c c', C.checkSig c' (C.signFn c sk) pub = (c == c'))
    (hinj : Function.Injective C.hashFn)
    (hne : v' ≠ .str H) :
    verifyProofE C nowMs
      (some (setField (mkProofJ C sk a d (deriveAgentId C pub) (.str H) m ts)
        "previousHash" v')) pub =
      .ok { valid := false,
            errors := ["Hash verification failed - proof data may be tampered",
                       "Signature verification failed - proof is not authentic"],
            warnings := if futureWarnB C nowMs ts
                        then ["Proof timestamp is in the future"] else [] } := by
  have hcan : canonicalJson (createProofDataJ a d (deriveAgentId C pub) v' m ts) ≠
      canonicalJson (createProofDataJ a d (deriveAgentId C pub) (.str H) m ts) :=
    canonical_prev_ne a (deriveAgentId C pub) d m v' (.str H) ts
      (canonical_prev_serC_ne v' H hne)
  have hmissing := requiredFields_setPrev C sk a (deriveAgentId C pub) d (.str H) v' m ts
  have hagent : verifyAgentIdB C
      (setField (mkProofJ C sk a d (deriveAgentId C pub) (.str H) m ts)
        "previousHash" v') pub = true := by
    rw [verifyAgentIdB, objGet_setPrev_agentId]
    exact beq_self_eq_true _
  have hhash : verifyHashB C
      (setField (mkProofJ C sk a d (deriveAgentId C pub) (.str H) m ts)
        "previousHash" v') = false := by
    rw [verifyHashB, objGet_setPrev_hash, proofDataOf_setPrev]
    apply beq_false_of_ne
    intro hcontra
    injection hcontra with hcontra
    injection hcontra with hcontra
    simp only [hashProofData] at hcontra
    exact hcan (hinj hcontra).symm
  have hsigf : verifySignatureB C
      (setField (mkProofJ C sk a d (deriveAgentId C pub) (.str H) m ts)
        "previousHash" v') pub = false := by
    simp only [verifySignatureB, objGet_setPrev_signature, proofDataOf_setPrev]
    rw [hsig2]
    exact beq_false_of_ne (Ne.symm hcan)
  have hread : readFieldE
      (some (setField (mkProofJ C sk a d (deriveAgentId C pub) (.str H) m ts)
        "previousHash" v')) "version" = .ok (some (.str PROOF_VERSION)) := rfl
  rw [verifyProofE, hread]
  simp only [bind, Except.bind, hmissing, List.map_nil, List.isEmpty_nil, if_true,
    hagent, hhash, hsigf, objGet_setPrev_timestamp, timeOf, Option.some_bind,
    Bool.false_eq_true, if_false, List.nil_append, List.append_nil]
  rw [futureWarnB]
  cases hgt : C.getTime (Json.str ts) with
  | none => simp
  | some t =>
    by_cases hf : t > nowMs + 60000
    · simp [hf]
    · simp [hf]

theorem perProofE_append (C : CryptoModel) (nowMs : Int) (pub : String) :
    ∀ (xs ys : List (Option Json)) (i : Nat) (e1 w1 e2 w2 : List String),
      perProofE C nowMs pub xs i = .ok (e1, w1) →
      perProofE C nowMs pub ys (i + xs.length) = .ok (e2, w2) →
      perProofE C nowMs pub (xs ++ ys) i = .ok (e1 ++ e2, w1 ++ w2) := by
  intro xs
  induction xs with
  | nil =>
      intro ys i e1 w1 e2 w2 h1 h2
      rw [perProofE] at h1
      injection h1 with h1
      simp only [Prod.mk.injEq] at h1
      obtain ⟨he, hw⟩ := h1
      subst he
      subst hw
      simpa using h2
  | cons pv rest ih =>
      intro ys i e1 w1 e2 w2 h1 h2
      cases hr : verifyProofE C nowMs pv pub with
      | error e =>
          rw [perProofE] at h1
          simp [hr, bind, Except.bind] at h1
      | ok r =>
          cases hps : perProofE C nowMs pub rest (i + 1) with
          | error e =>
              rw [perProofE] at h1
              simp [hr, hps, bind, Except.bind] at h1
          | ok vw =>
              obtain ⟨es, ws⟩ := vw
              rw [perProofE] at h1
              simp only [hr, hps, bind, Except.bind] at h1
              injection h1 with h1
              simp only [Prod.mk.injEq] at h1
              obtain ⟨he, hw⟩ := h1
              subst he
              subst hw
              have h2' : perProofE C nowMs pub ys ((i + 1) + rest.length) =
                  .ok (e2, w2) := by
                have hn : (i + 1) + rest.length = i + (pv :: rest).length := by
                  simp
                  omega
                rw [hn]
                exact h2
              have hrec := ih ys (i + 1) es ws e2 w2 hps h2'
              rw [List.cons_append, perProofE]
              simp only [hr, hrec, bind, Except.bind]
              simp [List.append_assoc]

theorem linkageE_break (C : CryptoModel) (sk aid : String)
    (p' v' : Json) (Hk TSk : String)
    (hprev : objGet p' "previousHash" = some v')
    (hhash : objGet p' "hash" = some (.str Hk))
    (hts : objGet p' "timestamp" = some (.str TSk))
    (hnn : p' ≠ Json.null)
    (I₂ : List (String × Json × Json × Int)) :
    ∀ (I₁ : List (String × Json × Json × Int)) (prev : Json) (i : Nat),
      I₁ ≠ [] →
      (∀ Hp, chainNextPrev C aid prev I₁ = .str Hp →
        jsStrictEq (some v') (some (.str Hp)) = false) →
      ∃ ws, linkageE C ((mkChainProofs C sk aid prev I₁).map some ++
          some p' :: (mkChainProofs C sk aid (.str Hk) I₂).map some) i =
        .ok ([chainBreakMsg (i + (I₁.length - 1))], ws) := by
  intro I₁
  induction I₁ with
  | nil => intro prev i hne _; exact absurd rfl hne
  | cons inp r₁ ih =>
      intro prev i _ hmis
      obtain ⟨a₀, d₀, m₀, t₀⟩ := inp
      cases r₁ with
      | nil =>
          have hidx : i + (List.length [((a₀ : String), (d₀ : Json), (m₀ : Json),
              (t₀ : Int))] - 1) = i := by
            simp
          simp only [hidx]
          refine ⟨(if tsLtB C (C.toISO t₀) TSk then [earlierTimestampMsg i] else []) ++
            chainTimeWarns C TSk I₂ (i + 1), ?_⟩
          rw [mkChainProofs, mkChainProofs]
          simp only [List.map_cons, List.map_nil, List.nil_append, List.cons_append]
          rw [linkageE]
          rw [readFieldE_some hnn "previousHash", hprev]
          rw [readFieldE_some (mkProofJ_ne_null C sk a₀ aid d₀ prev m₀ (C.toISO t₀))
            "hash", objGet_mkProofJ_hash]
          have hfalse := hmis _ rfl
          rw [readFieldE_some (mkProofJ_ne_null C sk a₀ aid d₀ prev m₀ (C.toISO t₀))
            "timestamp", objGet_mkProofJ_timestamp]
          rw [readFieldE_some hnn "timestamp", hts]
          simp only [bind, Except.bind, hfalse, Bool.false_eq_true, if_false]
          rw [linkageE_cons_mkChain C 0 sk aid I₂ (i + 1) p' Hk TSk hhash hts hnn]
          simp only [List.append_nil, timeOf, Option.some_bind]
          rw [tsLtB, temporal_match_eq]
      | cons inp₁ r₂ =>
          obtain ⟨a₁, d₁, m₁, t₁⟩ := inp₁
          have hmis' : ∀ Hp, chainNextPrev C aid
              (.str (hashProofData C (createProofDataJ a₀ d₀ aid prev m₀ (C.toISO t₀))))
              ((a₁, d₁, m₁, t₁) :: r₂) = .str Hp →
              jsStrictEq (some v') (some (.str Hp)) = false := by
            intro Hp h
            apply hmis Hp
            rw [chainNextPrev]
            exact h
          obtain ⟨ws', hws'⟩ := ih
            (.str (hashProofData C (createProofDataJ a₀ d₀ aid prev m₀ (C.toISO t₀))))
            (i + 1) (by intro h; cases h) hmis'
          have hidx : (i + 1) + (((a₁, d₁, m₁, t₁) :: r₂).length - 1) =
              i + (((a₀, d₀, m₀, t₀) :: (a₁, d₁, m₁, t₁) :: r₂).length - 1) := by
            simp only [List.length_cons]
            omega
          rw [hidx] at hws'
          refine ⟨(if tsLtB C (C.toISO t₀) (C.toISO t₁) then [earlierTimestampMsg i]
            else []) ++ ws', ?_⟩
          rw [mkChainProofs]
          simp only [List.map_cons, List.cons_append]
          rw [mkChainProofs] at hws' ⊢
          simp only [List.map_cons, List.cons_append] at hws' ⊢
          rw [linkageE]
          rw [readFieldE_some (mkProofJ_ne_null C sk a₁ aid d₁
            (.str (hashProofData C (createProofDataJ a₀ d₀ aid prev m₀ (C.toISO t₀))))
            m₁ (C.toISO t₁)) "previousHash", objGet_mkProofJ_previousHash]
          rw [readFieldE_some (mkProofJ_ne_null C sk a₀ aid d₀ prev m₀ (C.toISO t₀))
            "hash", objGet_mkProofJ_hash]
          rw [readFieldE_some (mkProofJ_ne_null C sk a₀ aid d₀ prev m₀ (C.toISO t₀))
            "timestamp", objGet_mkProofJ_timestamp]
          rw [readFieldE_some (mkProofJ_ne_null C sk a₁ aid d₁
            (.str (hashProofData C (createProofDataJ a₀ d₀ aid prev m₀ (C.toISO t₀))))
            m₁ (C.toISO t₁)) "timestamp", objGet_mkProofJ_timestamp]
          simp only [bind, Except.bind, jsStrictEq_str_self, if_true]
          rw [hws']
          simp only [List.nil_append, timeOf, Option.some_bind]
          rw [tsLtB, temporal_match_eq]

theorem perProofE_cons_result (C : CryptoModel) (nowMs : Int) (pub : String)
    (pv : Option Json) (xs : List (Option Json)) (i : Nat) (r : VerifyResult)
    (es ws : List String)
    (h1 : verifyProofE C nowMs pv pub = .ok r)
    (h2 : perProofE C nowMs pub xs (i + 1) = .ok (es, ws)) :
    perProofE C nowMs pub (pv :: xs) i =
      .ok ((if r.valid then []
            else ["Proof " ++ toString i ++ ": " ++ String.intercalate ", " r.errors])
              ++ es,
           (if r.warnings.isEmpty then []
            else ["Proof " ++ toString i ++ ": " ++ String.intercalate ", " r.warnings])
              ++ ws) := by
  rw [perProofE, h1]
  simp only [bind, Except.bind, h2]

theorem verifyChainE_two_errors (C : CryptoModel) (nowMs : Int) (pub aid : String)
    (A : List Json) (P' P₀ : Json) (A' B : List Json)
    (e1 cb : String) (W1 W2 W3 : List String) (K : Nat)
    (hAcons : A = P₀ :: A')
    (h0prev : objGet P₀ "previousHash" = some Json.null)
    (hK : A.length = K)
    (hppA : perProofE C nowMs pub (A.map some) 0 = .ok ([], W1))
    (hmid : perProofE C nowMs pub (some P' :: B.map some) K = .ok ([e1], W2))
    (hlk : linkageE C (A.map some ++ some P' :: B.map some) 1 = .ok ([cb], W3))
    (hag : ∀ p ∈ A ++ P' :: B,
      objGet p "agentId" = some (.str aid) ∧ p ≠ Json.null) :
    verifyChainE C nowMs (some (.arr (A ++ P' :: B))) pub =
      .ok { valid := false, errors := [e1, cb], warnings := W1 ++ W2 ++ W3 } := by
  subst hAcons
  have hys : perProofE C nowMs pub (some P' :: B.map some)
      (0 + ((P₀ :: A').map some).length) = .ok ([e1], W2) := by
    have hi : 0 + ((P₀ :: A').map some).length = K := by
      simp only [List.length_map, Nat.zero_add]
      exact hK
    rw [hi]
    exact hmid
  have hpp : perProofE C nowMs pub (((P₀ :: A') ++ P' :: B).map some) 0 =
      .ok ([] ++ [e1], W1 ++ W2) := by
    rw [List.map_append, List.map_cons]
    exact perProofE_append C nowMs pub _ _ 0 _ _ _ _ hppA hys
  have hlenE : lenOfE (some (.arr ((P₀ :: A') ++ P' :: B))) =
      .ok (some ((A' ++ P' :: B).length + 1)) := by
    simp [lenOfE]
  have helems : elemsOf (some (.arr ((P₀ :: A') ++ P' :: B))) =
      ((P₀ :: A') ++ P' :: B).map some := rfl
  have helem0 : elemAt (some (.arr ((P₀ :: A') ++ P' :: B))) 0 = some P₀ := rfl
  have h0nn : P₀ ≠ Json.null :=
    (hag P₀ (by simp)).2
  have hread0 : readFieldE (some P₀) "previousHash" = .ok (some Json.null) := by
    rw [readFieldE_some h0nn "previousHash", h0prev]
  have hw0 : jsStrictEq (some Json.null) (some Json.null) = true := rfl
  have hagents : agentIdsE (some (.arr ((P₀ :: A') ++ P' :: B))) =
      .ok (List.replicate ((P₀ :: A') ++ P' :: B).length (some (.str aid))) := by
    rw [agentIdsE]
    exact agentIdsGo_const aid _ hag
  have hcount : (countDistinct (List.replicate ((P₀ :: A') ++ P' :: B).length
      (some (.str aid))) [] > 1) = False := by
    have := countDistinct_replicate_str aid ((P₀ :: A') ++ P' :: B).length
    simp only [eq_iff_iff, iff_false]
    omega
  simp only [List.map_append, List.map_cons] at hpp hlk
  rw [verifyChainE]
  simp only [hlenE, bind, Except.bind, Option.some.injEq, Nat.succ_ne_zero, if_false,
    reduceCtorEq, helems, List.map_append, List.map_cons, hpp, helem0, hread0, hw0,
    if_true, hlk, hagents, hcount, List.append_nil, List.nil_append]
  simp

set_option maxHeartbeats 1600000 in
/-- C5: after building a valid chain and replacing `proofs[k].previousHash`
(for k ≥ 1) by any value different from `proofs[k-1].hash`, `verifyChain`
returns `valid: false` with exactly two errors, both naming index k — the
per-proof hash/signature failure of the rewritten proof and the chain-break
error — and no error at any other index: linkage at k+1 compares against
the stored (unchanged) `hash` field of `proofs[k]`. -/
theorem chain_break_error_localized_at_k (C : CryptoModel) (nowMs : Int)
    (sk pub : String)
    (hsig : ∀ c, C.checkSig c (C.signFn c sk) pub = true)
    (hsig2 : ∀ c c', C.checkSig c' (C.signFn c sk) pub = (c == c'))
    (hinj : Function.Injective C.hashFn)
    (a₀ : String) (d₀ m₀ : Json) (t₀ : Int)
    (r₁ : List (String × Json × Json × Int))
    (a : String) (d m : Json) (t : Int)
    (I₂ : List (String × Json × Json × Int))
    (v' : Json) (Hp : String)
    (hH : chainNextPrev C (deriveAgentId C pub) .null ((a₀, d₀, m₀, t₀) :: r₁) = .str Hp)
    (hne : v' ≠ .str Hp) :
    ∀ L k, L = mkChainProofs C sk (deriveAgentId C pub) .null
        (((a₀, d₀, m₀, t₀) :: r₁) ++ (a, d, m, t) :: I₂) →
      k = ((a₀, d₀, m₀, t₀) :: r₁).length →
      ∃ pk, L.get? k = some pk ∧
      ∃ r, verifyChainE C nowMs
          (some (.arr (L.set k (setField pk "previousHash" v')))) pub = .ok r ∧
        r.valid = false ∧
        r.errors = ["Proof " ++ toString k ++ ": " ++ String.intercalate ", "
            ["Hash verification failed - proof data may be tampered",
             "Signature verification failed - proof is not authentic"],
          chainBreakMsg k] := by
  intro L k hL hk
  subst hL
  subst hk
  have h2dec : mkChainProofs C sk (deriveAgentId C pub) (.str Hp) ((a, d, m, t) :: I₂) =
      mkProofJ C sk a d (deriveAgentId C pub) (.str Hp) m (C.toISO t) ::
      mkChainProofs C sk (deriveAgentId C pub)
        (.str (hashProofData C (createProofDataJ a d (deriveAgentId C pub) (.str Hp) m
          (C.toISO t)))) I₂ := by
    rw [mkChainProofs]
  have hdec : mkChainProofs C sk (deriveAgentId C pub) .null
      (((a₀, d₀, m₀, t₀) :: r₁) ++ (a, d, m, t) :: I₂) =
      mkChainProofs C sk (deriveAgentId C pub) .null ((a₀, d₀, m₀, t₀) :: r₁) ++
      mkProofJ C sk a d (deriveAgentId C pub) (.str Hp) m (C.toISO t) ::
      mkChainProofs C sk (deriveAgentId C pub)
        (.str (hashProofData C (createProofDataJ a d (deriveAgentId C pub) (.str Hp) m
          (C.toISO t)))) I₂ := by
    rw [mkChainProofs_append, hH, h2dec]
  have hlenA : (mkChainProofs C sk (deriveAgentId C pub) .null
      ((a₀, d₀, m₀, t₀) :: r₁)).length = ((a₀, d₀, m₀, t₀) :: r₁).length :=
    mkChainProofs_length C sk (deriveAgentId C pub) ((a₀, d₀, m₀, t₀) :: r₁) .null
  refine ⟨mkProofJ C sk a d (deriveAgentId C pub) (.str Hp) m (C.toISO t), ?_, ?_⟩
  · rw [hdec, ← hlenA, list_get_append_length]
  · have hsetEq : (mkChainProofs C sk (deriveAgentId C pub) .null
        (((a₀, d₀, m₀, t₀) :: r₁) ++ (a, d, m, t) :: I₂)).set
        (((a₀, d₀, m₀, t₀) :: r₁).length)
        (setField (mkProofJ C sk a d (deriveAgentId C pub) (.str Hp) m (C.toISO t))
          "previousHash" v') =
        mkChainProofs C sk (deriveAgentId C pub) .null ((a₀, d₀, m₀, t₀) :: r₁) ++
        setField (mkProofJ C sk a d (deriveAgentId C pub) (.str Hp) m (C.toISO t))
          "previousHash" v' ::
        mkChainProofs C sk (deriveAgentId C pub)
          (.str (hashProofData C (createProofDataJ a d (deriveAgentId C pub) (.str Hp) m
            (C.toISO t)))) I₂ := by
      rw [hdec, ← hlenA, list_set_append_length]
    have hppA := perProofE_mkChain C nowMs sk pub hsig ((a₀, d₀, m₀, t₀) :: r₁) .null 0
    have hppB := perProofE_mkChain C nowMs sk pub hsig I₂
      (.str (hashProofData C (createProofDataJ a d (deriveAgentId C pub) (.str Hp) m
        (C.toISO t)))) (((a₀, d₀, m₀, t₀) :: r₁).length + 1)
    have hbad := verifyProofE_tampered_prev C nowMs sk pub a d m (C.toISO t) Hp v'
      hsig2 hinj hne
    obtain ⟨E, W2, hmidEq, hE⟩ : ∃ E W2,
        perProofE C nowMs pub
          (some (setField (mkProofJ C sk a d (deriveAgentId C pub) (.str Hp) m
            (C.toISO t)) "previousHash" v') ::
           (mkChainProofs C sk (deriveAgentId C pub)
             (.str (hashProofData C (createProofDataJ a d (deriveAgentId C pub)
               (.str Hp) m (C.toISO t)))) I₂).map some)
          (((a₀, d₀, m₀, t₀) :: r₁).length) = .ok (E, W2) ∧
        E = ["Proof " ++ toString (((a₀, d₀, m₀, t₀) :: r₁).length) ++ ": " ++
          String.intercalate ", "
            ["Hash verification failed - proof data may be tampered",
             "Signature verification failed - proof is not authentic"]] :=
      ⟨_, _, perProofE_cons_result C nowMs pub _ _ _ _ _ _ hbad hppB, by simp⟩
    subst hE
    have hmisz : ∀ Hq, chainNextPrev C (deriveAgentId C pub) .null
        ((a₀, d₀, m₀, t₀) :: r₁) = .str Hq →
        jsStrictEq (some v') (some (.str Hq)) = false := by
      intro Hq hq
      rw [hH] at hq
      have hq2 : Hp = Hq := Json.str.inj hq
      subst hq2
      cases hb : jsStrictEq (some v') (some (.str Hp)) with
      | false => rfl
      | true => exact absurd ((jsStrictEq_some_str_iff v' Hp).mp hb) hne
    obtain ⟨lkw, hlkEq⟩ := linkageE_break C sk (deriveAgentId C pub)
      (setField (mkProofJ C sk a d (deriveAgentId C pub) (.str Hp) m (C.toISO t))
        "previousHash" v') v'
      (hashProofData C (createProofDataJ a d (deriveAgentId C pub) (.str Hp) m
        (C.toISO t))) (C.toISO t)
      (objGet_setPrev_prev C sk a (deriveAgentId C pub) d (.str Hp) v' m (C.toISO t))
      (objGet_setPrev_hash C sk a (deriveAgentId C pub) d (.str Hp) v' m (C.toISO t))
      (objGet_setPrev_timestamp C sk a (deriveAgentId C pub) d (.str Hp) v' m (C.toISO t))
      (setPrev_ne_null C sk a (deriveAgentId C pub) d (.str Hp) v' m (C.toISO t))
      I₂ ((a₀, d₀, m₀, t₀) :: r₁) .null 1 (by intro h; cases h) hmisz
    have hidx3 : 1 + (((a₀, d₀, m₀, t₀) :: r₁).length - 1) =
        ((a₀, d₀, m₀, t₀) :: r₁).length := by
      simp only [List.length_cons]
      omega
    rw [hidx3] at hlkEq
    have hag : ∀ p ∈ mkChainProofs C sk (deriveAgentId C pub) .null
        ((a₀, d₀, m₀, t₀) :: r₁) ++
        setField (mkProofJ C sk a d (deriveAgentId C pub) (.str Hp) m (C.toISO t))
          "previousHash" v' ::
        mkChainProofs C sk (deriveAgentId C pub)
          (.str (hashProofData C (createProofDataJ a d (deriveAgentId C pub) (.str Hp) m
            (C.toISO t)))) I₂,
        objGet p "agentId" = some (.str (deriveAgentId C pub)) ∧ p ≠ Json.null := by
      intro p hp
      rcases List.mem_append.mp hp with h | h
      · exact mkChainProofs_mem C sk (deriveAgentId C pub) _ _ p h
      · rcases List.mem_cons.mp h with rfl | h
        · exact ⟨objGet_setPrev_agentId C sk a (deriveAgentId C pub) d (.str Hp) v' m
            (C.toISO t),
            setPrev_ne_null C sk a (deriveAgentId C pub) d (.str Hp) v' m (C.toISO t)⟩
        · exact mkChainProofs_mem C sk (deriveAgentId C pub) _ _ p h
    have hmain := verifyChainE_two_errors C nowMs pub (deriveAgentId C pub)
      (mkChainProofs C sk (deriveAgentId C pub) .null ((a₀, d₀, m₀, t₀) :: r₁))
      (setField (mkProofJ C sk a d (deriveAgentId C pub) (.str Hp) m (C.toISO t))
        "previousHash" v')
      (mkProofJ C sk a₀ d₀ (deriveAgentId C pub) .null m₀ (C.toISO t₀))
      (mkChainProofs C sk (deriveAgentId C pub)
        (.str (hashProofData C (createProofDataJ a₀ d₀ (deriveAgentId C pub) .null m₀
          (C.toISO t₀)))) r₁)
      (mkChainProofs C sk (deriveAgentId C pub)
        (.str (hashProofData C (createProofDataJ a d (deriveAgentId C pub) (.str Hp) m
          (C.toISO t)))) I₂)
      ("Proof " ++ toString (((a₀, d₀, m₀, t₀) :: r₁).length) ++ ": " ++
        String.intercalate ", "
          ["Hash verification failed - proof data may be tampered",
           "Signature verification failed - proof is not authentic"])
      (chainBreakMsg (((a₀, d₀, m₀, t₀) :: r₁).length))
      (chainFutureWarns C nowMs ((a₀, d₀, m₀, t₀) :: r₁) 0) W2 lkw
      (((a₀, d₀, m₀, t₀) :: r₁).length)
      (by rw [mkChainProofs])
      (objGet_mkProofJ_previousHash C sk a₀ (deriveAgentId C pub) d₀ .null m₀ (C.toISO t₀))
      hlenA hppA hmidEq hlkEq hag
    simp only [hsetEq]
    exact ⟨_, hmain, rfl, rfl⟩

/-- C5 witness: a 2-proof chain, previousHash of proof 1 rewritten. -/
theorem chain_break_error_localized_at_k_witness :
    ((∀ c, Cdef.checkSig c (Cdef.signFn c "sk-PK") "PK" = true) ∧
     (∀ c c', Cdef.checkSig c' (Cdef.signFn c "sk-PK") "PK" = (c == c')) ∧
     Function.Injective Cdef.hashFn ∧
     chainNextPrev Cdef (deriveAgentId Cdef "PK") .null
       [("a", Json.obj [], Json.obj [], (1000 : Int))] =
       .str (hashProofData Cdef (createProofDataJ "a" (Json.obj [])
         (deriveAgentId Cdef "PK") .null (Json.obj []) (Cdef.toISO 1000))) ∧
     (Json.str "WRONG") ≠ .str (hashProofData Cdef (createProofDataJ "a" (Json.obj [])
       (deriveAgentId Cdef "PK") .null (Json.obj []) (Cdef.toISO 1000)))) ∧
    (∀ L k, L = mkChainProofs Cdef "sk-PK" (deriveAgentId Cdef "PK") .null
        ([("a", Json.obj [], Json.obj [], 1000)] ++
          ("b", Json.obj [], Json.obj [], 2000) :: []) →
      k = [("a", Json.obj [], Json.obj [], (1000 : Int))].length →
      ∃ pk, L.get? k = some pk ∧
      ∃ r, verifyChainE Cdef 5000
          (some (.arr (L.set k (setField pk "previousHash" (.str "WRONG"))))) "PK" =
            .ok r ∧
        r.valid = false ∧
        r.errors = ["Proof " ++ toString k ++ ": " ++ String.intercalate ", "
            ["Hash verification failed - proof data may be tampered",
             "Signature verification failed - proof is not authentic"],
          chainBreakMsg k]) :=
  ⟨⟨Cdef_sig "PK", Cdef_sig_iff "PK", Cdef_hash_inj, rfl, by decide⟩,
    chain_break_error_localized_at_k Cdef 5000 "sk-PK" "PK" (Cdef_sig "PK")
      (Cdef_sig_iff "PK") Cdef_hash_inj "a" (Json.obj []) (Json.obj []) 1000 []
      "b" (Json.obj []) (Json.obj []) 2000 [] (.str "WRONG") _ rfl (by decide)⟩
